import Mathlib

/-!
Verification of the event-synchronized stream fusion core of `testbeam_analysis`
(`testbeam_analysis/analysis_utils.py` and `testbeam_analysis/dut_alignment.py`).

A table row is represented by its `event_number` (the only field the chunked
reader ever inspects), so a table is a `List Int`.  The Python source runs on
Python 2 / numpy; two behaviours of that platform are modelled explicitly:

* comparing a number with `None` follows the CPython 2 total order in which
  `None` is below every number (`x > None` is `True`, `x < None` is `False`);
* `np.argmin` / `np.argmax` over a boolean vector return the index of the first
  `False` / first `True`, and return `0` when the vector is constant.
-/

namespace TestbeamAnalysis

/-- Comparison `x > o` where `o` may be Python `None` (Python 2 places `None`
below every number). -/
def py2GtOpt (x : Int) (o : Option Int) : Bool :=
  match o with
  | none => true
  | some t => x > t

/-- Comparison `x < o` where `o` may be Python `None` (Python 2 places `None`
below every number). -/
def py2LtOpt (x : Int) (o : Option Int) : Bool :=
  match o with
  | none => false
  | some s => x < s

/-- Behaviour of `np.argmin` on a boolean vector: index of the first `False`,
and `0` when no entry is `False`. -/
def npArgminBool (l : List Bool) : Nat :=
  if l.all (fun b => b) then 0 else l.findIdx (fun b => !b)

/-- Behaviour of `np.argmax` on a boolean vector: index of the first `True`,
and `0` when no entry is `True`. -/
def npArgmaxBool (l : List Bool) : Nat :=
  if l.all (fun b => !b) then 0 else l.findIdx (fun b => b)

/-- Python slice `l[a:b]` (for `0 ≤ a`, `0 ≤ b`, with clamping). -/
def pySlice (l : List Int) (a b : Nat) : List Int :=
  (l.take b).drop a

/-- Embedding of `analysis_utils.get_data_in_event_range` (the
`assume_sorted=True` branch, which is the one `data_aligned_at_events` uses).
The Python code indexes `event_number[0]` and `event_number[-1]`, so it is only
ever called on a non-empty array; on `[]` the model returns `[]`. -/
def get_data_in_event_range (array : List Int) (event_start event_stop : Option Int) :
    List Int :=
  match array with
  | [] => []
  | a :: rest =>
    let ev := a :: rest
    let dataEventStart := a
    let dataEventStop := ev.getLastD 0
    let special :=
      match event_start, event_stop with
      | some s, some t => dataEventStop < s || dataEventStart > t || s == t
      | _, _ => false
    if special then []
    else
      let minIdx : Nat :=
        match event_start with
        | none => 0
        | some s => npArgminBool (ev.map (fun x => decide (x < s)))
      let maxIdx0 : Nat :=
        match event_stop with
        | none => ev.length
        | some t => npArgmaxBool (ev.map (fun x => decide (x ≥ t)))
      let maxIdx := if maxIdx0 = 0 || maxIdx0 > ev.length then ev.length else maxIdx0
      (ev.take maxIdx).drop minIdx

/-- One iteration of the read loop of `analysis_utils.data_aligned_at_events`:
the chunk it yielded together with the index it reported (if it yielded at
all), and whether the "Buffer too small to fit event" warning was logged. -/
structure IterStep where
  yielded : Option (List Int × Nat)
  warn : Bool
  deriving Repr, DecidableEq

/-- Embedding of the `while(start_index < stop_index)` loop of
`analysis_utils.data_aligned_at_events` (source lines 244-272).  `fuel` bounds
the recursion; `fuel ≥ stopIdx - startIdx` makes it behave as the Python loop
because every iteration advances `start_index` by at least one.  The skipped
iterations of the `continue` branch produce no `IterStep`. -/
def chunkGo (table : List Int) (startEv stopEv : Option Int) (chunkSize : Nat)
    (stopIdx : Nat) : Nat → Nat → List IterStep
  | 0, _ => []
  | fuel + 1, startIdx =>
    if startIdx < stopIdx then
      let src := (table.drop startIdx).take (chunkSize + 1)
      if src.isEmpty then []
      else
        let firstEvent := src.headD 0
        let lastEvent := src.getLastD 0
        if startEv.any (fun s => lastEvent < s) then
          chunkGo table startEv stopEv chunkSize stopIdx fuel (startIdx + src.length)
        else
          let lastEventStartIndex := src.findIdx (fun x => x == lastEvent)
          let nrows :=
            if lastEventStartIndex = 0 then src.length
            else if startIdx + chunkSize > stopIdx then src.length
            else lastEventStartIndex
          let warn := lastEventStartIndex = 0 && src.length != 1
          let step : IterStep :=
            if (startEv.isSome || stopEv.isSome)
                && (py2GtOpt lastEvent stopEv || py2LtOpt firstEvent startEv) then
              let sel := get_data_in_event_range (src.take nrows) startEv stopEv
              if sel.isEmpty then ⟨none, warn⟩
              else ⟨some (sel, startIdx + sel.length), warn⟩
            else
              ⟨some (src.take nrows, startIdx + nrows), warn⟩
          if stopEv.any (fun t => lastEvent > t) then [step]
          else step :: chunkGo table startEv stopEv chunkSize stopIdx fuel (startIdx + nrows)
    else []

/-- Embedding of `pytables.Table.get_where_list('event_number==v', start, stop)`
reduced to its first hit: the least index `i ∈ [start, stop)` with
`table[i] = v`, if any. -/
def get_where_first (table : List Int) (v : Int) (start stop : Nat) : Option Nat :=
  match ((table.take stop).drop start).findIdx? (fun x => x == v) with
  | some i => some (start + i)
  | none => none

/-- Embedding of `analysis_utils.data_aligned_at_events` (source lines
186-272): the speed-up index search, the one-shot read special case, and the
chunked read loop.  The result is the list of loop iterations; the yielded
chunks are recovered by `chunksOf`. -/
def data_aligned_at_events (table : List Int) (start_event_number stop_event_number : Option Int)
    (start stop : Option Nat) (try_speedup : Bool) (chunk_size : Nat) : List IterStep :=
  let startIdx0 := start.getD 0
  let stopIdx0 := stop.getD table.length
  let startFound :=
    if try_speedup then
      match start_event_number with
      | some s => get_where_first table s startIdx0 stopIdx0
      | none => none
    else none
  let startIdx1 := startFound.getD startIdx0
  let stopFound :=
    if try_speedup then
      match stop_event_number with
      | some t => get_where_first table t startIdx1 stopIdx0
      | none => none
    else none
  let stopIdx1 := stopFound.getD stopIdx0
  if startFound.isSome && stopFound.isSome && (stopIdx1 ≤ startIdx1 + chunk_size) then
    [⟨some (pySlice table startIdx1 stopIdx1, stopIdx1), false⟩]
  else
    chunkGo table start_event_number stop_event_number chunk_size stopIdx1
      (stopIdx1 - startIdx1) startIdx1

/-- The chunks actually yielded by a run of `data_aligned_at_events`. -/
def chunksOf (steps : List IterStep) : List (List Int) :=
  steps.filterMap (fun st => st.yielded.map Prod.fst)

/-- The subset of the table the documentation of `data_aligned_at_events`
promises: records with `start_event ≤ event_number < stop_event` (a missing
bound selects everything on that side). -/
def eventRangeSubset (table : List Int) (start_event_number stop_event_number : Option Int) :
    List Int :=
  table.filter (fun e =>
    (match start_event_number with | none => true | some s => decide (s ≤ e))
    && (match stop_event_number with | none => true | some t => decide (e < t)))

@[simp] theorem chunksOf_nil : chunksOf [] = [] := rfl

@[simp] theorem chunksOf_cons_some (cnk : List Int) (i : Nat) (w : Bool) (rest : List IterStep) :
    chunksOf (⟨some (cnk, i), w⟩ :: rest) = cnk :: chunksOf rest := rfl

@[simp] theorem chunksOf_cons_none (w : Bool) (rest : List IterStep) :
    chunksOf (⟨none, w⟩ :: rest) = chunksOf rest := rfl

/-- Unbounded reads cut the table into consecutive slices: concatenating all
chunks of the loop started at `startIdx` returns exactly the table from
`startIdx` on. -/
theorem chunkGo_none_none_flatten (table : List Int) (chunkSize : Nat) :
    ∀ (fuel startIdx : Nat), table.length - startIdx ≤ fuel →
      (chunksOf (chunkGo table none none chunkSize table.length fuel startIdx)).flatten
        = table.drop startIdx := by
  intro fuel
  induction fuel with
  | zero =>
    intro startIdx h
    have hle : table.length ≤ startIdx := by omega
    simp [chunkGo, List.drop_eq_nil_of_le hle]
  | succ fuel ih =>
    intro startIdx h
    by_cases hlt : startIdx < table.length
    · have hlen : ((table.drop startIdx).take (chunkSize + 1)).length
          = min (chunkSize + 1) (table.length - startIdx) := by
        simp
      have hne : ((table.drop startIdx).take (chunkSize + 1)).isEmpty = false := by
        rw [List.isEmpty_eq_false_iff_exists_mem]
        have : 0 < ((table.drop startIdx).take (chunkSize + 1)).length := by omega
        exact List.exists_mem_of_length_pos this
      rw [chunkGo]
      simp only [if_pos hlt, hne, Bool.false_eq_true, if_false, Option.any_none,
        Option.isSome_none, Bool.false_or, Bool.false_and, if_neg (by simp : ¬False)]
      set src := (table.drop startIdx).take (chunkSize + 1) with hsrc
      set lesi := src.findIdx (fun x => x == src.getLastD 0) with hlesi
      set nrows := if lesi = 0 then src.length
        else if startIdx + chunkSize > table.length then src.length else lesi with hnr
      have hsl : src.length = min (chunkSize + 1) (table.length - startIdx) := hlen
      have h1 : 1 ≤ nrows := by
        rw [hnr]
        split
        · omega
        · split
          · omega
          · omega
      have h2 : nrows ≤ chunkSize + 1 := by
        have hfl : lesi ≤ src.length := by
          rw [hlesi]; exact List.findIdx_le_length _
        rw [hnr]
        split
        · omega
        · split
          · omega
          · omega
      rw [chunksOf_cons_some, List.flatten_cons, ih (startIdx + nrows) (by omega), hsrc,
        List.take_take, min_eq_left h2, ← List.drop_drop, List.take_append_drop]
    · rw [chunkGo]
      simp [if_neg hlt, List.drop_eq_nil_of_le (le_of_not_lt hlt)]

/-- Elements of the prefix that `findIdx` skips all fail the predicate. -/
theorem mem_take_findIdx_false {α : Type} {p : α → Bool} :
    ∀ {l : List α} {x : α}, x ∈ l.take (l.findIdx p) → p x = false := by
  intro l
  induction l with
  | nil => intro x h; simp at h
  | cons a t ih =>
    intro x h
    rw [List.findIdx_cons] at h
    by_cases hp : p a
    · simp [hp] at h
    · have hp' : p a = false := by simpa using hp
      simp only [hp', cond_false, List.take_succ_cons, List.mem_cons] at h
      rcases h with rfl | h'
      · exact hp'
      · exact ih h'

/-- In a `≤`-sorted list every element is at most the `getLastD` value. -/
theorem sorted_le_getLastD : ∀ {l : List Int} (d : Int), List.Sorted (· ≤ ·) l →
    ∀ x ∈ l, x ≤ l.getLastD d := by
  intro l
  induction l with
  | nil => intro d _ x hx; simp at hx
  | cons a t ih =>
    intro d hs x hx
    rw [List.getLastD_cons]
    rcases List.mem_cons.mp hx with rfl | hx'
    · rcases List.mem_cons.mp (List.getLastD_mem_cons t x) with h | h
      · exact le_of_eq h.symm
      · exact List.rel_of_sorted_cons hs _ h
    · cases t with
      | nil => simp at hx'
      | cons b t' => exact ih a hs.of_cons x hx'

/-- In a `≤`-sorted list the `headD` value is at most every element. -/
theorem sorted_headD_le {l : List Int} (d : Int) (hs : List.Sorted (· ≤ ·) l)
    {x : Int} (hx : x ∈ l) : l.headD d ≤ x := by
  cases l with
  | nil => simp at hx
  | cons a t =>
    rcases List.mem_cons.mp hx with rfl | h
    · simp
    · simpa using List.rel_of_sorted_cons hs x h

/-- The `getLastD` value of a non-empty list is one of its elements. -/
theorem getLastD_mem_of_ne_nil {α : Type} (l : List α) (d : α) (h : l ≠ []) :
    l.getLastD d ∈ l := by
  obtain ⟨a, t, rfl⟩ := List.exists_cons_of_ne_nil h
  rw [List.getLastD_cons]
  exact List.getLastD_mem_cons t a

/-- Dropping up to `findIdx` exposes a head satisfying the predicate. -/
theorem drop_findIdx_cons {α : Type} (p : α → Bool) (l : List α) (h : l.findIdx p < l.length) :
    ∃ y t, l.drop (l.findIdx p) = y :: t ∧ p y = true := by
  have hlen : 0 < (l.drop (l.findIdx p)).length := by
    rw [List.length_drop]; omega
  obtain ⟨y, t, hyt⟩ := List.exists_cons_of_length_pos hlen
  have h0 : (l.drop (l.findIdx p))[0] = y := by
    simp [hyt]
  have h1 : (l.drop (l.findIdx p))[0] = l[l.findIdx p] := by
    simp
  have h2 : p (l[l.findIdx p]) = true := List.findIdx_getElem
  refine ⟨y, t, hyt, ?_⟩
  rw [← h0, h1]
  exact h2

/-- A value occurring at least `c + 1` times in a sorted list cannot occur in the
prefix that precedes the first row of the last event of the `c + 1`-row read
buffer: the whole run would have to fit strictly before the buffer's last row. -/
theorem not_mem_take_findIdx_getLastD {L : List Int} (hs : List.Sorted (· ≤ ·) L)
    (c : Nat) (v : Int) (hcount : c + 1 ≤ L.count v) :
    v ∉ L.take ((L.take (c + 1)).findIdx
      (fun x => x == (L.take (c + 1)).getLastD 0)) := by
  intro hmem
  set src := L.take (c + 1) with hsrcdef
  set lastEv := src.getLastD 0 with hlastdef
  set lesi := src.findIdx (fun x => x == lastEv) with hlesidef
  have hlesile : lesi ≤ src.length := by
    rw [hlesidef]; exact List.findIdx_le_length _
  have hsrclen : src.length ≤ c + 1 := by
    rw [hsrcdef, List.length_take]; exact Nat.min_le_left _ _
  -- the two prefixes agree
  have htt : L.take lesi = src.take lesi := by
    rw [hsrcdef, List.take_take, min_eq_left (le_trans hlesile hsrclen)]
  rw [htt] at hmem
  have hvne : v ≠ lastEv := by
    have := mem_take_findIdx_false (p := fun x => x == lastEv) (x := v)
      (by rw [← hlesidef]; exact hmem)
    simpa using this
  have hvsrc : v ∈ src := List.take_subset _ _ hmem
  have hsrcsorted : List.Sorted (· ≤ ·) src :=
    List.Pairwise.sublist (List.take_sublist _ _) hs
  have hvle : v ≤ lastEv := sorted_le_getLastD 0 hsrcsorted v hvsrc
  have hvlt : v < lastEv := lt_of_le_of_ne hvle hvne
  have hsrcne : src ≠ [] := List.ne_nil_of_mem hvsrc
  have hlastmem : lastEv ∈ src := by
    rw [hlastdef]; exact getLastD_mem_of_ne_nil src 0 hsrcne
  -- occurrences of v after the buffer are impossible
  have hdropzero : (L.drop (c + 1)).count v = 0 := by
    rw [List.count_eq_zero]
    intro hv
    have hsplit : List.Sorted (· ≤ ·) (L.take (c + 1) ++ L.drop (c + 1)) := by
      rw [List.take_append_drop]; exact hs
    have hcross := (List.pairwise_append.mp hsplit).2.2
    have : lastEv ≤ v := hcross lastEv (by rw [← hsrcdef]; exact hlastmem) v hv
    omega
  -- occurrences of v inside the buffer number at most `c`
  have hlesilt : lesi < src.length := by
    rw [hlesidef]
    exact List.findIdx_lt_length_of_exists ⟨lastEv, hlastmem, by simp⟩
  have hsrccnt : src.count v ≤ c := by
    obtain ⟨y, t, hyt, hpy⟩ := drop_findIdx_cons (fun x => x == lastEv) src
      (by rw [← hlesidef]; exact hlesilt)
    rw [← hlesidef] at hyt
    have hy : y = lastEv := by simpa using hpy
    have hdz : (src.drop lesi).count v = 0 := by
      rw [List.count_eq_zero]
      intro hv
      have hds : List.Sorted (· ≤ ·) (src.drop lesi) :=
        List.Pairwise.sublist (List.drop_sublist _ _) hsrcsorted
      have hle := sorted_headD_le 0 hds hv
      rw [hyt] at hle
      simp only [List.headD_cons] at hle
      rw [hy] at hle
      omega
    have hcnt_split : src.count v = (src.take lesi).count v + (src.drop lesi).count v := by
      conv_lhs => rw [← List.take_append_drop lesi src]
      rw [List.count_append]
    have htk : (src.take lesi).count v ≤ lesi := by
      have h1 : (src.take lesi).count v ≤ (src.take lesi).length := List.count_le_length _ _
      have h2 : (src.take lesi).length = min lesi src.length := List.length_take _ _
      omega
    omega
  have hLcnt : L.count v = src.count v + (L.drop (c + 1)).count v := by
    conv_lhs => rw [← List.take_append_drop (c + 1) L]
    rw [List.count_append, ← hsrcdef]
  omega

/-- Cutting the read buffer at the first row of its last event preserves the
occurrence count of a value occurring at least `c + 1` times. -/
theorem count_drop_findIdx {L : List Int} (hs : List.Sorted (· ≤ ·) L)
    (c : Nat) (v : Int) (hcount : c + 1 ≤ L.count v) :
    (L.drop ((L.take (c + 1)).findIdx
      (fun x => x == (L.take (c + 1)).getLastD 0))).count v = L.count v := by
  set lesi := (L.take (c + 1)).findIdx (fun x => x == (L.take (c + 1)).getLastD 0) with hld
  have hnm : v ∉ L.take lesi := by
    rw [hld]; exact not_mem_take_findIdx_getLastD hs c v hcount
  have htc : (L.take lesi).count v = 0 := List.count_eq_zero.mpr hnm
  have : L.count v = (L.take lesi).count v + (L.drop lesi).count v := by
    conv_lhs => rw [← List.take_append_drop lesi L]
    rw [List.count_append]
  omega

/-- If some event's run exceeds the chunk size, an unbounded read eventually
fills a whole read buffer with that (or an earlier oversized) event and logs the
"Buffer too small to fit event" warning. -/
theorem chunkGo_warn_of_long_run (table : List Int) (chunkSize : Nat)
    (hsort : List.Sorted (· ≤ ·) table) (hc : 1 ≤ chunkSize) :
    ∀ (fuel startIdx : Nat) (v : Int), table.length - startIdx ≤ fuel →
      chunkSize + 1 ≤ (table.drop startIdx).count v →
      ∃ st ∈ chunkGo table none none chunkSize table.length fuel startIdx, st.warn = true := by
  intro fuel
  induction fuel with
  | zero =>
    intro startIdx v h hcnt
    exfalso
    have h1 : (table.drop startIdx).count v ≤ (table.drop startIdx).length :=
      List.count_le_length _ _
    have h2 : (table.drop startIdx).length = table.length - startIdx := List.length_drop _ _
    omega
  | succ fuel ih =>
    intro startIdx v h hcnt
    have hdlen : (table.drop startIdx).length = table.length - startIdx := List.length_drop _ _
    have hcl : (table.drop startIdx).count v ≤ (table.drop startIdx).length :=
      List.count_le_length _ _
    have hlt : startIdx < table.length := by omega
    have hsl : ((table.drop startIdx).take (chunkSize + 1)).length = chunkSize + 1 := by
      rw [List.length_take]; omega
    have hne : ((table.drop startIdx).take (chunkSize + 1)).isEmpty = false := by
      rw [List.isEmpty_eq_false_iff_exists_mem]
      exact List.exists_mem_of_length_pos (by omega)
    rw [chunkGo]
    simp only [if_pos hlt, hne, Bool.false_eq_true, if_false, Option.any_none,
      Option.isSome_none, Bool.false_or, Bool.false_and, if_neg (by simp : ¬False)]
    set src := (table.drop startIdx).take (chunkSize + 1) with hsrc
    set lesi := src.findIdx (fun x => x == src.getLastD 0) with hlesi
    by_cases h0 : lesi = 0
    · refine ⟨_, List.mem_cons_self _ _, ?_⟩
      simp [h0, hsl]
      omega
    · set nrows := if lesi = 0 then src.length
        else if startIdx + chunkSize > table.length then src.length else lesi with hnr
      have hnreq : nrows = lesi := by
        rw [hnr, if_neg h0, if_neg (by omega)]
      have hlpos : 1 ≤ nrows := by omega
      have hsorted_drop : List.Sorted (· ≤ ·) (table.drop startIdx) :=
        List.Pairwise.sublist (List.drop_sublist _ _) hsort
      have hcnt' : chunkSize + 1 ≤ (table.drop (startIdx + nrows)).count v := by
        rw [← List.drop_drop]
        rw [hnreq, hlesi, hsrc]
        rw [count_drop_findIdx hsorted_drop chunkSize v hcnt]
        exact hcnt
      obtain ⟨st, hmem, hwarn⟩ := ih (startIdx + nrows) v (by omega) hcnt'
      exact ⟨st, List.mem_cons_of_mem _ hmem, hwarn⟩

/-- Without event bounds the reader reduces to the plain chunked loop. -/
theorem data_aligned_unbounded_eq (table : List Int) (ts : Bool) (c : Nat) :
    data_aligned_at_events table none none none none ts c
      = chunkGo table none none c table.length table.length 0 := by
  simp [data_aligned_at_events]

/-- **C1** For every event-ordered table, optional bounds and chunk size, the
concatenation of the chunks yielded by `data_aligned_at_events` is claimed to
equal the records with `start_event ≤ event_number < stop_event`.  The code
violates this: on the table with events `[0, 2]`, `start_event_number = 1` and
`chunk_size = 1`, the speed-up search finds no row with event number `1`, the
whole-chunk skip at line 249 does not fire because the chunk's last event is
`2 ≥ 1`, and `get_data_in_event_range` then returns the full slice `[0]`
(`np.argmin` of an all-`True` mask is `0`), so the record with event number `0`
is yielded even though it lies below the start bound. -/
theorem C1_event_range_concatenation_fails :
    chunksOf (data_aligned_at_events [0, 2] (some 1) none none none true 1) = [[0], [2]]
    ∧ eventRangeSubset [0, 2] (some 1) none = [2]
    ∧ (chunksOf (data_aligned_at_events [0, 2] (some 1) none none none true 1)).flatten
      ≠ eventRangeSubset [0, 2] (some 1) none := by
  refine ⟨by decide, by decide, by decide⟩

/-- A run of four records of event `7` with `chunk_size = 2` is yielded split
into the chunks `[7,7,7]` and `[7]`: the complete run is never emitted as one
chunk, though the first part carries the buffer warning. -/
theorem C2_oversized_run_not_one_chunk :
    data_aligned_at_events [7, 7, 7, 7] none none none none true 2
      = [⟨some ([7, 7, 7], 3), true⟩, ⟨some ([7], 4), false⟩]
    ∧ [7, 7, 7, 7] ∉ chunksOf (data_aligned_at_events [7, 7, 7, 7] none none none none true 2) := by
  refine ⟨by decide, by decide⟩

/-- **C2** (amended) If a single event's record run is larger than `chunk_size`,
`data_aligned_at_events` still emits every record of the run — split across
several oversized chunks when the run exceeds `chunk_size + 1` rows, rather
than always as one chunk — surfaces the recoverable buffer warning, and
processing continues: concatenating all chunks of an unbounded read reproduces
the table exactly. -/
theorem C2_oversized_run_lossless_and_warned :
    (∀ (table : List Int) (try_speedup : Bool) (chunk_size : Nat),
      (chunksOf (data_aligned_at_events table none none none none try_speedup chunk_size)).flatten
        = table)
    ∧ (∀ (table : List Int) (try_speedup : Bool) (chunk_size : Nat) (v : Int),
        List.Sorted (· ≤ ·) table → 1 ≤ chunk_size → chunk_size < table.count v →
        ∃ st ∈ data_aligned_at_events table none none none none try_speedup chunk_size,
          st.warn = true) := by
  constructor
  · intro table ts c
    rw [data_aligned_unbounded_eq]
    have := chunkGo_none_none_flatten table c table.length 0 (by omega)
    simpa using this
  · intro table ts c v hsort hc hcnt
    rw [data_aligned_unbounded_eq]
    refine chunkGo_warn_of_long_run table c hsort hc table.length 0 v (by omega) ?_
    rw [List.drop_zero]
    omega

/-- Witness for `C2_oversized_run_lossless_and_warned` at the table `[5, 5, 5]`
with `chunk_size = 1` (a three-record run of event `5`). -/
theorem C2_oversized_run_lossless_and_warned_witness :
    (chunksOf (data_aligned_at_events [5, 5, 5] none none none none true 1)).flatten = [5, 5, 5]
    ∧ ∃ st ∈ data_aligned_at_events [5, 5, 5] none none none none true 1, st.warn = true :=
  ⟨C2_oversized_run_lossless_and_warned.1 [5, 5, 5] true 1,
   C2_oversized_run_lossless_and_warned.2 [5, 5, 5] true 1 5 (by decide) (by decide) (by decide)⟩

/-- The `headD` value of a non-empty list is one of its elements. -/
theorem headD_mem_of_ne_nil {α : Type} (l : List α) (d : α) (h : l ≠ []) :
    l.headD d ∈ l := by
  obtain ⟨a, t, rfl⟩ := List.exists_cons_of_ne_nil h
  simp

/-- The `headD` value after dropping `n` elements is the `n`-th element. -/
theorem headD_drop {α : Type} (l : List α) (n : Nat) (d : α) (h : n < l.length) :
    (l.drop n).headD d = l[n] := by
  have h0 : 0 < (l.drop n).length := by rw [List.length_drop]; omega
  obtain ⟨y, t, hyt⟩ := List.exists_cons_of_length_pos h0
  have hy : (l.drop n)[0] = y := by simp [hyt]
  rw [List.getElem_drop] at hy
  rw [hyt]
  simpa using hy.symm

/-- When `findIdx` returns `0`, the head satisfies the predicate. -/
theorem head_sat_of_findIdx_zero {α : Type} (p : α → Bool) (a : α) (t : List α)
    (h : (a :: t).findIdx p = 0) : p a = true := by
  rw [List.findIdx_cons] at h
  by_cases hp : p a
  · exact hp
  · have hp' : p a = false := by simpa using hp
    simp [hp'] at h

/-- Cut property of the read loop when the buffer holds more than one event:
every record strictly before the first row of the buffer's last event is
strictly smaller than the record at which the next iteration starts. -/
theorem cut_lt_of_take_findIdx {L : List Int} (c : Nat) (hSL : List.Sorted (· ≤ ·) L) :
    ∀ x ∈ (L.take (c + 1)).take
        ((L.take (c + 1)).findIdx (fun z => z == (L.take (c + 1)).getLastD 0)),
      x < (L.drop ((L.take (c + 1)).findIdx
        (fun z => z == (L.take (c + 1)).getLastD 0))).headD 0 := by
  intro x hx
  set src := L.take (c + 1) with hsrcdef
  set lastEv := src.getLastD 0 with hlastdef
  set lesi := src.findIdx (fun z => z == lastEv) with hlesidef
  have hxne : x ≠ lastEv := by
    have := mem_take_findIdx_false (p := fun z => z == lastEv) (x := x)
      (by rw [← hlesidef]; exact hx)
    simpa using this
  have hxsrc : x ∈ src := List.take_subset _ _ hx
  have hsrcsorted : List.Sorted (· ≤ ·) src :=
    List.Pairwise.sublist (List.take_sublist _ _) hSL
  have hxle : x ≤ lastEv := sorted_le_getLastD 0 hsrcsorted x hxsrc
  have hxlt : x < lastEv := lt_of_le_of_ne hxle hxne
  have hsrcne : src ≠ [] := List.ne_nil_of_mem hxsrc
  have hlastmem : lastEv ∈ src := by
    rw [hlastdef]; exact getLastD_mem_of_ne_nil src 0 hsrcne
  have hlesilt : lesi < src.length := by
    rw [hlesidef]
    exact List.findIdx_lt_length_of_exists ⟨lastEv, hlastmem, by simp⟩
  have hsrclenle : src.length ≤ L.length := by
    rw [hsrcdef, List.length_take]; exact Nat.min_le_right _ _
  have hlesiL : lesi < L.length := lt_of_lt_of_le hlesilt hsrclenle
  rw [headD_drop L lesi 0 hlesiL]
  have hlesilt' : src.findIdx (fun z => z == lastEv) < src.length := by
    rw [← hlesidef]; exact hlesilt
  obtain ⟨y, t, hyt, hpy⟩ := drop_findIdx_cons (fun z => z == lastEv) src hlesilt'
  have hy : y = lastEv := by simpa using hpy
  have h1 : (src.drop lesi).headD 0 = y := by
    rw [hlesidef, hyt]; simp
  have h2 : (src.drop lesi).headD 0 = src[lesi] := headD_drop src lesi 0 hlesilt
  have h3 : src[lesi] = L[lesi] := by
    simp only [hsrcdef, List.getElem_take]
  have hfinal : L[lesi] = lastEv := by
    rw [← h3, ← h2, h1, hy]
  rw [hfinal]
  exact hxlt

/-- Cut property of the read loop when the whole buffer is one event (the
oversized-chunk case): provided no event occurs more than `c + 1` times, the
record at which the next iteration starts belongs to a strictly larger event. -/
theorem cut_lt_of_full_buffer {L : List Int} (c : Nat) (hSL : List.Sorted (· ≤ ·) L)
    (hcnt : ∀ v, L.count v ≤ c + 1)
    (h0 : (L.take (c + 1)).findIdx (fun z => z == (L.take (c + 1)).getLastD 0) = 0)
    (hlen : c + 1 < L.length) :
    ∀ x ∈ L.take (c + 1), x < (L.drop (c + 1)).headD 0 := by
  intro x hx
  set src := L.take (c + 1) with hsrcdef
  set lastEv := src.getLastD 0 with hlastdef
  have hsrclen : src.length = c + 1 := by
    rw [hsrcdef, List.length_take]; omega
  have hsrcne : src ≠ [] := by
    intro hnil
    rw [hnil] at hsrclen
    simp at hsrclen
  obtain ⟨a, t, hat⟩ := List.exists_cons_of_ne_nil hsrcne
  have hahead : a = lastEv := by
    have := head_sat_of_findIdx_zero (fun z => z == lastEv) a t
      (by rw [← hat]; exact h0)
    simpa using this
  have hsrcsorted : List.Sorted (· ≤ ·) src :=
    List.Pairwise.sublist (List.take_sublist _ _) hSL
  have hall : ∀ y ∈ src, y = lastEv := by
    intro y hy
    have h1 : y ≤ lastEv := sorted_le_getLastD 0 hsrcsorted y hy
    have h2 : src.headD 0 ≤ y := sorted_headD_le 0 hsrcsorted hy
    rw [hat] at h2
    simp only [List.headD_cons] at h2
    rw [hahead] at h2
    omega
  have hcount_src : src.count lastEv = c + 1 := by
    rw [← hsrclen]
    exact List.count_eq_length.mpr (fun b hb => (hall b hb).symm)
  have hdropne : L.drop (c + 1) ≠ [] := by
    have : (L.drop (c + 1)).length = L.length - (c + 1) := List.length_drop _ _
    intro hnil
    rw [hnil] at this
    simp at this
    omega
  set hd := (L.drop (c + 1)).headD 0 with hhd
  have hhdmem : hd ∈ L.drop (c + 1) := by
    rw [hhd]; exact headD_mem_of_ne_nil _ 0 hdropne
  have hsplit : List.Sorted (· ≤ ·) (L.take (c + 1) ++ L.drop (c + 1)) := by
    rw [List.take_append_drop]; exact hSL
  have hlaste : lastEv ≤ hd := by
    refine (List.pairwise_append.mp hsplit).2.2 lastEv ?_ hd hhdmem
    rw [← hsrcdef, hlastdef]
    exact getLastD_mem_of_ne_nil src 0 hsrcne
  have hdne : hd ≠ lastEv := by
    intro heq
    have h1 : 0 < (L.drop (c + 1)).count lastEv := by
      rw [List.count_pos_iff]
      rw [← heq]
      exact hhdmem
    have h2 : L.count lastEv = src.count lastEv + (L.drop (c + 1)).count lastEv := by
      conv_lhs => rw [← List.take_append_drop (c + 1) L]
      rw [List.count_append, ← hsrcdef]
    have h3 := hcnt lastEv
    omega
  have hxlast : x = lastEv := hall x (by rw [hsrcdef] at hx ⊢; exact hx)
  rw [hxlast]
  omega

/-- The loop yields nothing once `start_index` has reached `stop_index`. -/
theorem chunkGo_eq_nil_of_not_lt (table : List Int) (a b : Option Int) (c stopIdx fuel startIdx : Nat)
    (h : ¬ startIdx < stopIdx) :
    chunkGo table a b c stopIdx fuel startIdx = [] := by
  cases fuel with
  | zero => rfl
  | succ fuel => rw [chunkGo]; simp [h]

/-- The loop yields nothing once the table is exhausted (the Python code would
fail to index an empty read there). -/
theorem chunkGo_eq_nil_of_table_exhausted (table : List Int) (a b : Option Int)
    (c stopIdx fuel startIdx : Nat) (h : table.length ≤ startIdx) :
    chunkGo table a b c stopIdx fuel startIdx = [] := by
  cases fuel with
  | zero => rfl
  | succ fuel =>
    rw [chunkGo]
    by_cases hlt : startIdx < stopIdx
    · have hemp : ((table.drop startIdx).take (c + 1)).isEmpty = true := by
        rw [List.drop_eq_nil_of_le h]
        rfl
      simp [hlt, hemp]
    · simp [hlt]

/-- `get_data_in_event_range` only ever returns rows of its input. -/
theorem get_data_in_event_range_subset (l : List Int) (a b : Option Int) :
    ∀ x ∈ get_data_in_event_range l a b, x ∈ l := by
  intro x hx
  cases l with
  | nil => simp [get_data_in_event_range] at hx
  | cons h t =>
    simp only [get_data_in_event_range] at hx
    split at hx
    · simp at hx
    · exact List.take_subset _ _ (List.drop_subset _ _ hx)

/-- Every chunk yielded by the loop started at `startIdx` is non-empty and
consists of rows of the table from `startIdx` on. -/
theorem chunkGo_chunks_sound (table : List Int) (a b : Option Int) (c stopIdx : Nat) :
    ∀ (fuel startIdx : Nat) (cnk : List Int),
      cnk ∈ chunksOf (chunkGo table a b c stopIdx fuel startIdx) →
      cnk ≠ [] ∧ ∀ x ∈ cnk, x ∈ table.drop startIdx := by
  intro fuel
  induction fuel with
  | zero => intro s cnk h; simp [chunkGo] at h
  | succ fuel ih =>
    intro s cnk h
    by_cases hlt : s < stopIdx
    · by_cases hexh : table.length ≤ s
      · rw [chunkGo_eq_nil_of_table_exhausted table a b c stopIdx _ s hexh] at h
        simp at h
      · push_neg at hexh
        have hemp' : ((table.drop s).take (c + 1)).isEmpty = false := by
          rw [List.isEmpty_eq_false_iff_exists_mem]
          refine List.exists_mem_of_length_pos ?_
          rw [List.length_take, List.length_drop]; omega
        have hsub : ∀ (k : Nat) (x : Int), x ∈ table.drop (s + k) → x ∈ table.drop s := by
          intro k x hx
          rw [← List.drop_drop] at hx
          exact List.drop_subset _ _ hx
        have htake_sub : ∀ (n : Nat) (x : Int),
            x ∈ ((table.drop s).take (c + 1)).take n → x ∈ table.drop s := by
          intro n x hx
          exact List.take_subset _ _ (List.take_subset _ _ hx)
        rw [chunkGo] at h
        simp only [if_pos hlt, hemp', Bool.false_eq_true, if_false] at h
        by_cases hskip : (a.any (fun z => ((table.drop s).take (c + 1)).getLastD 0 < z)) = true
        · rw [if_pos hskip] at h
          obtain ⟨hne, hmem⟩ := ih _ cnk h
          exact ⟨hne, fun x hx => hsub _ x (hmem x hx)⟩
        · rw [if_neg hskip] at h
          set src := (table.drop s).take (c + 1) with hsrcd
          set lesi := src.findIdx (fun z => z == src.getLastD 0) with hlesid
          set nrows := if lesi = 0 then src.length
            else if s + c > stopIdx then src.length else lesi with hnrd
          have hsl : 1 ≤ src.length := by
            rw [hsrcd, List.length_take, List.length_drop]; omega
          have hnr1 : 1 ≤ nrows := by
            rw [hnrd]
            split
            · omega
            · split
              · omega
              · omega
          have htn : ((src.take nrows) : List Int) ≠ [] := by
            have : (src.take nrows).length = min nrows src.length := List.length_take _ _
            intro hnil
            rw [hnil] at this
            simp at this
            omega
          by_cases hcond : ((a.isSome || b.isSome)
              && (py2GtOpt (src.getLastD 0) b || py2LtOpt (src.headD 0) a)) = true
          · rw [if_pos hcond] at h
            by_cases hsel : (get_data_in_event_range (src.take nrows) a b).isEmpty = true
            · rw [if_pos hsel] at h
              by_cases hbrk : (b.any (fun z => src.getLastD 0 > z)) = true
              · rw [if_pos hbrk] at h
                simp at h
              · rw [if_neg hbrk] at h
                rw [chunksOf_cons_none] at h
                obtain ⟨hne, hmem⟩ := ih _ cnk h
                exact ⟨hne, fun x hx => hsub _ x (hmem x hx)⟩
            · rw [if_neg hsel] at h
              have hselne : get_data_in_event_range (src.take nrows) a b ≠ [] := by
                intro hnil
                rw [hnil] at hsel
                simp at hsel
              have hmem_sel : ∀ x ∈ get_data_in_event_range (src.take nrows) a b,
                  x ∈ table.drop s := by
                intro x hx
                exact htake_sub _ x (get_data_in_event_range_subset _ a b x hx)
              by_cases hbrk : (b.any (fun z => src.getLastD 0 > z)) = true
              · rw [if_pos hbrk] at h
                rw [chunksOf_cons_some, chunksOf_nil] at h
                rcases List.mem_singleton.mp h with rfl
                exact ⟨hselne, hmem_sel⟩
              · rw [if_neg hbrk] at h
                rw [chunksOf_cons_some] at h
                rcases List.mem_cons.mp h with rfl | h'
                · exact ⟨hselne, hmem_sel⟩
                · obtain ⟨hne, hmem⟩ := ih _ cnk h'
                  exact ⟨hne, fun x hx => hsub _ x (hmem x hx)⟩
          · rw [if_neg hcond] at h
            by_cases hbrk : (b.any (fun z => src.getLastD 0 > z)) = true
            · rw [if_pos hbrk] at h
              rw [chunksOf_cons_some, chunksOf_nil] at h
              rcases List.mem_singleton.mp h with rfl
              exact ⟨htn, fun x hx => htake_sub _ x hx⟩
            · rw [if_neg hbrk] at h
              rw [chunksOf_cons_some] at h
              rcases List.mem_cons.mp h with rfl | h'
              · exact ⟨htn, fun x hx => htake_sub _ x hx⟩
              · obtain ⟨hne, hmem⟩ := ih _ cnk h'
                exact ⟨hne, fun x hx => hsub _ x (hmem x hx)⟩
    · rw [chunkGo_eq_nil_of_not_lt table a b c stopIdx _ s hlt] at h
      simp at h

/-- Provided the table is sorted and no event number occurs more than
`chunkSize + 1` times, any two chunks yielded by the read loop are totally
ordered: every record of an earlier chunk is strictly below every record of a
later chunk. -/
theorem chunkGo_chunks_pairwise (table : List Int) (a b : Option Int) (c stopIdx : Nat)
    (hsort : List.Sorted (· ≤ ·) table) (hcnt : ∀ v, table.count v ≤ c + 1) :
    ∀ (fuel startIdx : Nat),
      (chunksOf (chunkGo table a b c stopIdx fuel startIdx)).Pairwise
        (fun c1 c2 => ∀ x ∈ c1, ∀ y ∈ c2, x < y) := by
  intro fuel
  induction fuel with
  | zero => intro s; simp [chunkGo]
  | succ fuel ih =>
    intro s
    by_cases hlt : s < stopIdx
    · by_cases hexh : table.length ≤ s
      · rw [chunkGo_eq_nil_of_table_exhausted table a b c stopIdx _ s hexh]
        simp
      · push_neg at hexh
        have hemp' : ((table.drop s).take (c + 1)).isEmpty = false := by
          rw [List.isEmpty_eq_false_iff_exists_mem]
          refine List.exists_mem_of_length_pos ?_
          rw [List.length_take, List.length_drop]; omega
        rw [chunkGo]
        simp only [if_pos hlt, hemp', Bool.false_eq_true, if_false]
        by_cases hskip : (a.any (fun z => ((table.drop s).take (c + 1)).getLastD 0 < z)) = true
        · rw [if_pos hskip]
          exact ih _
        · rw [if_neg hskip]
          set src := (table.drop s).take (c + 1) with hsrcd
          set lesi := src.findIdx (fun z => z == src.getLastD 0) with hlesid
          set nrows := if lesi = 0 then src.length
            else if s + c > stopIdx then src.length else lesi with hnrd
          have hslm : src.length = min (c + 1) (table.length - s) := by
            rw [hsrcd, List.length_take, List.length_drop]
          have hLsorted : List.Sorted (· ≤ ·) (table.drop s) :=
            List.Pairwise.sublist (List.drop_sublist _ _) hsort
          -- the decisive fact shared by all yielding branches
          have key : ∀ (cnk : List Int), (∀ x ∈ cnk, x ∈ src.take nrows) →
              ∀ c' ∈ chunksOf (chunkGo table a b c stopIdx fuel (s + nrows)),
              ∀ x ∈ cnk, ∀ y ∈ c', x < y := by
            intro cnk hsubc c' hc' x hx y hy
            have hy' : y ∈ table.drop (s + nrows) :=
              (chunkGo_chunks_sound table a b c stopIdx fuel (s + nrows) c' hc').2 y hy
            have hsnlt : s + nrows < table.length := by
              have h1 : (table.drop (s + nrows)).length = table.length - (s + nrows) :=
                List.length_drop _ _
              have h2 : 0 < (table.drop (s + nrows)).length :=
                List.length_pos.mpr (List.ne_nil_of_mem hy')
              omega
            have hxsrc : x ∈ src.take nrows := hsubc x hx
            have hy'' : y ∈ (table.drop s).drop nrows := by
              rw [List.drop_drop]
              exact hy'
            have hdsorted : List.Sorted (· ≤ ·) ((table.drop s).drop nrows) :=
              List.Pairwise.sublist (List.drop_sublist _ _) hLsorted
            have hhdy : ((table.drop s).drop nrows).headD 0 ≤ y :=
              sorted_headD_le 0 hdsorted hy''
            by_cases h0 : lesi = 0
            · have hnre : nrows = src.length := by rw [hnrd, if_pos h0]
              have hfull : src.length = c + 1 := by omega
              have hxsrc' : x ∈ src := by
                rw [hnre, List.take_length] at hxsrc
                exact hxsrc
              have hcntL : ∀ v, (table.drop s).count v ≤ c + 1 := fun v =>
                le_trans ((List.drop_sublist _ _).count_le v) (hcnt v)
              have hlenL : c + 1 < (table.drop s).length := by
                rw [List.length_drop]; omega
              have hcut : x < ((table.drop s).drop (c + 1)).headD 0 :=
                cut_lt_of_full_buffer (L := table.drop s) c hLsorted hcntL h0 hlenL x hxsrc'
              rw [hnre, hfull] at hhdy
              exact lt_of_lt_of_le hcut hhdy
            · by_cases hspec : s + c > stopIdx
              · exfalso
                have hnre : nrows = src.length := by rw [hnrd, if_neg h0, if_pos hspec]
                have : chunkGo table a b c stopIdx fuel (s + nrows) = [] := by
                  rcases (by omega : ¬ (s + nrows < stopIdx) ∨ table.length ≤ s + nrows) with hcase | hcase
                  · exact chunkGo_eq_nil_of_not_lt table a b c stopIdx _ _ hcase
                  · exact chunkGo_eq_nil_of_table_exhausted table a b c stopIdx _ _ hcase
                rw [this] at hc'
                simp at hc'
              · have hnre : nrows = lesi := by rw [hnrd, if_neg h0, if_neg hspec]
                have hx2 : x ∈ src.take lesi := by rw [← hnre]; exact hxsrc
                have hcut : x < ((table.drop s).drop lesi).headD 0 :=
                  cut_lt_of_take_findIdx (L := table.drop s) c hLsorted x hx2
                rw [hnre] at hhdy
                exact lt_of_lt_of_le hcut hhdy
          by_cases hcond : ((a.isSome || b.isSome)
              && (py2GtOpt (src.getLastD 0) b || py2LtOpt (src.headD 0) a)) = true
          · rw [if_pos hcond]
            by_cases hsel : (get_data_in_event_range (src.take nrows) a b).isEmpty = true
            · rw [if_pos hsel]
              by_cases hbrk : (b.any (fun z => src.getLastD 0 > z)) = true
              · rw [if_pos hbrk]; simp
              · rw [if_neg hbrk, chunksOf_cons_none]
                exact ih _
            · rw [if_neg hsel]
              by_cases hbrk : (b.any (fun z => src.getLastD 0 > z)) = true
              · rw [if_pos hbrk, chunksOf_cons_some, chunksOf_nil]
                simp
              · rw [if_neg hbrk, chunksOf_cons_some]
                refine List.pairwise_cons.mpr ⟨?_, ih _⟩
                intro c' hc' x hx y hy
                exact key _ (get_data_in_event_range_subset _ a b) c' hc' x hx y hy
          · rw [if_neg hcond]
            by_cases hbrk : (b.any (fun z => src.getLastD 0 > z)) = true
            · rw [if_pos hbrk, chunksOf_cons_some, chunksOf_nil]
              simp
            · rw [if_neg hbrk, chunksOf_cons_some]
              refine List.pairwise_cons.mpr ⟨?_, ih _⟩
              intro c' hc' x hx y hy
              exact key _ (fun z hz => hz) c' hc' x hx y hy
    · rw [chunkGo_eq_nil_of_not_lt table a b c stopIdx _ s hlt]
      simp

/-- A run of five records of event `5` with `chunk_size = 2` is split as
`[5,5,5]`, `[5,5]`: two consecutive non-empty chunks whose boundary events are
equal, so the claimed strict increase across chunk boundaries fails. -/
theorem C3_boundary_counterexample :
    chunksOf (data_aligned_at_events [5, 5, 5, 5, 5, 6] none none none none true 2)
      = [[5, 5, 5], [5, 5], [6]]
    ∧ ¬ (chunksOf (data_aligned_at_events [5, 5, 5, 5, 5, 6] none none none none true 2)).Chain'
        (fun c1 c2 => c1 ≠ [] → c2 ≠ [] → c1.getLastD 0 < c2.headD 0) := by
  have heq : chunksOf (data_aligned_at_events [5, 5, 5, 5, 5, 6] none none none none true 2)
      = [[5, 5, 5], [5, 5], [6]] := by decide
  refine ⟨heq, ?_⟩
  rw [heq]
  intro hch
  have h12 := (List.chain'_cons.mp hch).1
  have hlt := h12 (by decide) (by decide)
  exact absurd hlt (by decide)

/-- **C3** (amended) For every pair of consecutive non-empty chunks yielded by
`data_aligned_at_events` on a table sorted by event number in which no event
number occurs more than `chunk_size + 1` times, the last `event_number` of the
earlier chunk is strictly less than the first `event_number` of the later
chunk, so no repeated-event-number group is split across a chunk boundary.  (A
run longer than `chunk_size + 1` records is split across consecutive chunks
that share its event number, hence the run bound.) -/
theorem C3_chunk_boundaries_strictly_increase
    (table : List Int) (start_event_number stop_event_number : Option Int)
    (start stop : Option Nat) (try_speedup : Bool) (chunk_size : Nat)
    (hsort : List.Sorted (· ≤ ·) table)
    (hrun : ∀ v : Int, table.count v ≤ chunk_size + 1) :
    (chunksOf (data_aligned_at_events table start_event_number stop_event_number
        start stop try_speedup chunk_size)).Chain'
      (fun c1 c2 => c1 ≠ [] → c2 ≠ [] → c1.getLastD 0 < c2.headD 0) := by
  have main : ∀ (stopIdx fuel startIdx : Nat),
      (chunksOf (chunkGo table start_event_number stop_event_number chunk_size
          stopIdx fuel startIdx)).Chain'
        (fun c1 c2 => c1 ≠ [] → c2 ≠ [] → c1.getLastD 0 < c2.headD 0) := by
    intro stopIdx fuel startIdx
    have hp := chunkGo_chunks_pairwise table start_event_number stop_event_number
      chunk_size stopIdx hsort hrun fuel startIdx
    refine List.Pairwise.chain' (hp.imp ?_)
    intro c1 c2 hr h1 h2
    exact hr _ (getLastD_mem_of_ne_nil c1 0 h1) _ (headD_mem_of_ne_nil c2 0 h2)
  simp only [data_aligned_at_events]
  repeat' split
  all_goals first
    | exact main _ _ _
    | simp

/-- Witness for `C3_chunk_boundaries_strictly_increase` on the sorted table
`[9, 9]` with `chunk_size = 1` (no event occurs more than twice). -/
theorem C3_chunk_boundaries_strictly_increase_witness :
    List.Sorted (· ≤ ·) ([9, 9] : List Int)
    ∧ (chunksOf (data_aligned_at_events [9, 9] none none none none true 1)).Chain'
        (fun c1 c2 => c1 ≠ [] → c2 ≠ [] → c1.getLastD 0 < c2.headD 0) :=
  ⟨by decide, C3_chunk_boundaries_strictly_increase [9, 9] none none none none true 1
    (by decide) (fun v => le_trans (List.count_le_length v [9, 9]) (by simp))⟩

/-! Histogram engine.  The Python wrappers (`hist_1d_index`, `hist_2d_index`,
`hist_3d_index` in `analysis_utils.py`) check the dimensionality of `shape`,
allocate a zeroed buffer, call the native fill loop and reshape the flat buffer
to `shape`. -/

/-- Modelled from the spec: the C++ `analysis_functions.hist_1d` inner loop is
not part of the repository (only its Python caller is); spec §4.4/§9 describe
it as raw, bounds-unchecked writes into the flat result buffer.  Memory is a
total map from flat addresses to counts, so a write outside the histogram
window stays observable instead of corrupting neighbouring objects. -/
def hist_1d_fill : List Int → (Int → Nat) → Int → Nat
  | [], mem => mem
  | x :: rest, mem =>
    hist_1d_fill rest (fun addr => if addr = x then mem addr + 1 else mem addr)

/-- Modelled from the spec: the C++ `analysis_functions.hist_2d` inner loop is
not part of the repository; raw writes at the C-ravelled flat index
`x * shape[1] + y`, unchecked. -/
def hist_2d_fill : List Int → List Int → Nat → (Int → Nat) → Int → Nat
  | x :: xr, y :: yr, s1, mem =>
    hist_2d_fill xr yr s1
      (fun addr => if addr = x * (s1 : Int) + y then mem addr + 1 else mem addr)
  | _, _, _, mem => mem

/-- Modelled from the spec: the C++ `analysis_functions.hist_3d` inner loop is
not part of the repository; raw writes at the C-ravelled flat index
`(x * shape[1] + y) * shape[2] + z`, unchecked. -/
def hist_3d_fill : List Int → List Int → List Int → Nat → Nat → (Int → Nat) → Int → Nat
  | x :: xr, y :: yr, z :: zr, s1, s2, mem =>
    hist_3d_fill xr yr zr s1 s2
      (fun addr => if addr = (x * (s1 : Int) + y) * (s2 : Int) + z then mem addr + 1 else mem addr)
  | _, _, _, _, _, mem => mem

/-- Embedding of `analysis_utils.hist_1d_index`: reject a shape that is not
one-dimensional (`raise NotImplementedError`), else fill a zeroed buffer and
return the window `[0, shape[0])`. -/
def hist_1d_index (x : List Int) (shape : List Nat) : Except String (List Nat) :=
  if shape.length ≠ 1 then Except.error "The shape has to describe a 1-d histogram"
  else
    let mem := hist_1d_fill x (fun _ => 0)
    Except.ok ((List.range (shape.getD 0 0)).map (fun i => mem (Int.ofNat i)))

/-- Embedding of `analysis_utils.hist_2d_index`: reject a shape that is not
two-dimensional, else fill the flat buffer and reshape it to `shape`. -/
def hist_2d_index (x y : List Int) (shape : List Nat) : Except String (List (List Nat)) :=
  if shape.length ≠ 2 then Except.error "The shape has to describe a 2-d histogram"
  else
    let s0 := shape.getD 0 0
    let s1 := shape.getD 1 0
    let mem := hist_2d_fill x y s1 (fun _ => 0)
    Except.ok ((List.range s0).map
      (fun i => (List.range s1).map (fun j => mem (Int.ofNat (i * s1 + j)))))

/-- Embedding of `analysis_utils.hist_3d_index`: reject a shape that is not
three-dimensional, else fill the flat buffer and reshape it to `shape`. -/
def hist_3d_index (x y z : List Int) (shape : List Nat) :
    Except String (List (List (List Nat))) :=
  if shape.length ≠ 3 then Except.error "The shape has to describe a 3-d histogram"
  else
    let s0 := shape.getD 0 0
    let s1 := shape.getD 1 0
    let s2 := shape.getD 2 0
    let mem := hist_3d_fill x y z s1 s2 (fun _ => 0)
    Except.ok ((List.range s0).map
      (fun i => (List.range s1).map
        (fun j => (List.range s2).map (fun k => mem (Int.ofNat ((i * s1 + j) * s2 + k))))))

/-! Sorted-array set operations.  The C++ implementations
(`analysis_functions.get_events_in_both_arrays`,
`analysis_functions.get_max_events_in_both_arrays`) are not part of the
repository; only their Python callers are. -/

/-- Modelled from the spec: §4.1 `intersect(A, B)` — a merge-style two-pointer
intersection of two sorted event-number arrays. -/
def get_events_in_both_arrays : List Int → List Int → List Int
  | [], _ => []
  | _ :: _, [] => []
  | a :: as, b :: bs =>
    if a < b then get_events_in_both_arrays as (b :: bs)
    else if b < a then get_events_in_both_arrays (a :: as) bs
    else a :: get_events_in_both_arrays as bs
termination_by x y => x.length + y.length

/-- The brute-force reference for set intersection the spec's testable
properties compare against: keep the elements of `A` found anywhere in `B`. -/
def bruteIntersect (A B : List Int) : List Int :=
  A.filter (fun x => decide (x ∈ B))

/-- Two-pointer merge of two sorted arrays (keeps duplicates). -/
def mergeSorted : List Int → List Int → List Int
  | [], bs => bs
  | a :: as, [] => a :: as
  | a :: as, b :: bs =>
    if a ≤ b then a :: mergeSorted as (b :: bs)
    else b :: mergeSorted (a :: as) bs
termination_by x y => x.length + y.length

/-- Collapse adjacent duplicates of a (sorted) list. -/
def dedupAdj : List Int → List Int
  | [] => []
  | [a] => [a]
  | a :: b :: rest => if a = b then dedupAdj (b :: rest) else a :: dedupAdj (b :: rest)

/-- Modelled from the spec: §4.1 `bounded_union_count(A, B)` — the C++
`analysis_functions.get_max_events_in_both_arrays` produces, in one pass, the
sorted set of event numbers appearing in either sorted input array and reports
how many entries of the caller's `|A| + |B|`-sized buffer were used; the Python
wrapper returns `event_result[:count]`.  Modelled as merge followed by
adjacent deduplication, together with the used-entry count. -/
def get_max_events_in_both_arrays (events_one events_two : List Int) : List Int × Nat :=
  let r := dedupAdj (mergeSorted events_one events_two)
  (r, r.length)

/-! Cluster mapping. -/

/-- One row of `data_struct.ClusterInfoTable` as consumed here: the event
number, the mean cluster position, and the charge. -/
structure ClusterInfo where
  event_number : Int
  mean_column : Int
  mean_row : Int
  charge : Int
  deriving Repr, DecidableEq

/-- The zero/sentinel row `map_cluster` fills gaps with ("Not existing hits in
events have all values set to 0"). -/
def zeroCluster : ClusterInfo := ⟨0, 0, 0, 0⟩

/-- Recursive core of `map_cluster`: `prev` is the previously handled
reference event so that, per spec §4.3, only the first of repeated reference
entries receives the cluster row. -/
def map_cluster_go (cluster : List ClusterInfo) : Option Int → List Int → List ClusterInfo
  | _, [] => []
  | prev, e :: es =>
    (if prev = some e then zeroCluster
     else (cluster.find? (fun c => c.event_number == e)).getD zeroCluster)
      :: map_cluster_go cluster (some e) es

/-- Modelled from the spec: the C++ `analysis_functions.map_cluster` is not
part of the repository; §4.3 describes a merge-style left join of the sorted
cluster array `D` onto the sorted reference event array `R`: output length
`|R|`, row `i` holding the cluster fields for `R[i]` when the event is present
(only the first of repeated reference entries is served), else the zero row. -/
def map_cluster (events : List Int) (cluster : List ClusterInfo) : List ClusterInfo :=
  map_cluster_go cluster none events

/-! Track-quality bits of `dut_alignment.fix_event_alignment` (source lines
365-390): the corrected Tracklets array starts with `track_quality = 1 << 24`
on every row ("DUT0 is always correlated with itself") and, for every secondary
DUT column, ORs `1 << (24 + dut_index)` into the rows the correlation mask
marks with 1.  `track_quality` is a `np.uint32` column, hence the `% 2 ^ 32`. -/
def tqStep (tq : List Nat) (p : Nat × List Nat) : List Nat :=
  tq.mapIdx (fun i q =>
    if p.2.getD i 0 = 1 then (q ||| ((1 <<< (24 + p.1)) % 2 ^ 32)) % 2 ^ 32 else q)

/-- The `track_quality` column of the corrected Tracklets: one `Nat` (uint32)
per row, seeded with bit 24 and updated once per secondary DUT column with
that DUT's correlation mask. -/
def fix_event_alignment_track_quality (n : Nat) (duts : List (Nat × List Nat)) : List Nat :=
  duts.foldl tqStep (List.replicate n ((1 <<< 24) % 2 ^ 32))

/-- **C4** The claim requires the histogram routines to reject any coordinate
outside `[0, shape[d])` with an out-of-range error and to leave unrelated
memory untouched.  The code does neither (the spec itself calls the unchecked
indexing a latent defect): with `x = [5]` and `shape = (3,)`, `hist_1d_index`
returns the all-zero histogram without any error while the native fill loop
has incremented flat address `5`, outside the three-bin window. -/
theorem C4_out_of_range_write_not_rejected :
    hist_1d_index [5] [3] = Except.ok [0, 0, 0]
    ∧ hist_1d_fill [5] (fun _ => 0) 5 = 1 := by
  exact ⟨rfl, rfl⟩

/-- **C8** Each histogram routine fails fast with an error when the supplied
shape does not have the dimensionality it implements, and otherwise returns
its count array in exactly the requested shape. -/
theorem C8_histogram_shape_contract :
    (∀ (x : List Int) (shape : List Nat), shape.length ≠ 1 →
      hist_1d_index x shape = Except.error "The shape has to describe a 1-d histogram")
    ∧ (∀ (x : List Int) (n : Nat), ∃ r, hist_1d_index x [n] = Except.ok r ∧ r.length = n)
    ∧ (∀ (x y : List Int) (shape : List Nat), shape.length ≠ 2 →
      hist_2d_index x y shape = Except.error "The shape has to describe a 2-d histogram")
    ∧ (∀ (x y : List Int) (m n : Nat), ∃ r, hist_2d_index x y [m, n] = Except.ok r
        ∧ r.length = m ∧ ∀ row ∈ r, row.length = n)
    ∧ (∀ (x y z : List Int) (shape : List Nat), shape.length ≠ 3 →
      hist_3d_index x y z shape = Except.error "The shape has to describe a 3-d histogram")
    ∧ (∀ (x y z : List Int) (m n k : Nat), ∃ r, hist_3d_index x y z [m, n, k] = Except.ok r
        ∧ r.length = m ∧ ∀ plane ∈ r, plane.length = n ∧ ∀ row ∈ plane, row.length = k) := by
  refine ⟨?_, ?_, ?_, ?_, ?_, ?_⟩
  · intro x shape h
    rw [hist_1d_index, if_pos h]
  · intro x n
    have h : hist_1d_index x [n]
        = Except.ok ((List.range (([n] : List Nat).getD 0 0)).map
          (fun i => hist_1d_fill x (fun _ => 0) (Int.ofNat i))) := by
      rw [hist_1d_index, if_neg (by simp)]
    exact ⟨_, h, by simp⟩
  · intro x y shape h
    rw [hist_2d_index, if_pos h]
  · intro x y m n
    have h : hist_2d_index x y [m, n]
        = Except.ok ((List.range (([m, n] : List Nat).getD 0 0)).map
          (fun i => (List.range (([m, n] : List Nat).getD 1 0)).map
            (fun j => hist_2d_fill x y (([m, n] : List Nat).getD 1 0) (fun _ => 0)
              (Int.ofNat (i * ([m, n] : List Nat).getD 1 0 + j))))) := by
      rw [hist_2d_index, if_neg (by simp)]
    refine ⟨_, h, by simp, ?_⟩
    intro row hrow
    simp only [List.mem_map] at hrow
    obtain ⟨i, _, rfl⟩ := hrow
    simp
  · intro x y z shape h
    rw [hist_3d_index, if_pos h]
  · intro x y z m n k
    have h : hist_3d_index x y z [m, n, k]
        = Except.ok ((List.range (([m, n, k] : List Nat).getD 0 0)).map
          (fun i => (List.range (([m, n, k] : List Nat).getD 1 0)).map
            (fun j => (List.range (([m, n, k] : List Nat).getD 2 0)).map
              (fun l => hist_3d_fill x y z (([m, n, k] : List Nat).getD 1 0)
                (([m, n, k] : List Nat).getD 2 0) (fun _ => 0)
                (Int.ofNat ((i * ([m, n, k] : List Nat).getD 1 0 + j)
                  * ([m, n, k] : List Nat).getD 2 0 + l)))))) := by
      rw [hist_3d_index, if_neg (by simp)]
    refine ⟨_, h, by simp, ?_⟩
    intro plane hplane
    simp only [List.mem_map] at hplane
    obtain ⟨i, _, rfl⟩ := hplane
    refine ⟨by simp, ?_⟩
    intro row hrow
    simp only [List.mem_map] at hrow
    obtain ⟨j, _, rfl⟩ := hrow
    simp

/-- Witness for `C8_histogram_shape_contract`: a two-dimensional shape passed
to the 1-d routine is rejected, and shape `(2,)` produces two bins. -/
theorem C8_histogram_shape_contract_witness :
    hist_1d_index [0] [2, 2] = Except.error "The shape has to describe a 1-d histogram"
    ∧ ∃ r, hist_1d_index [0] [2] = Except.ok r ∧ r.length = 2 :=
  ⟨C8_histogram_shape_contract.1 [0] [2, 2] (by decide),
   C8_histogram_shape_contract.2.1 [0] 2⟩

/-- Membership in the two-pointer intersection of sorted arrays is exactly
joint membership. -/
theorem mem_get_events_in_both_arrays : ∀ (A B : List Int),
    List.Sorted (· ≤ ·) A → List.Sorted (· ≤ ·) B →
    ∀ x : Int, x ∈ get_events_in_both_arrays A B ↔ (x ∈ A ∧ x ∈ B) := by
  intro A B
  induction A, B using get_events_in_both_arrays.induct with
  | case1 B =>
    intro _ _ x
    simp [get_events_in_both_arrays]
  | case2 a as =>
    intro _ _ x
    simp [get_events_in_both_arrays]
  | case3 a as b bs hab ih =>
    intro hA hB x
    rw [get_events_in_both_arrays, if_pos hab, ih hA.of_cons hB]
    constructor
    · rintro ⟨h1, h2⟩
      exact ⟨List.mem_cons_of_mem a h1, h2⟩
    · rintro ⟨h1, h2⟩
      rcases List.mem_cons.mp h1 with rfl | h1'
      · exfalso
        rcases List.mem_cons.mp h2 with rfl | h2'
        · omega
        · have := List.rel_of_sorted_cons hB x h2'
          omega
      · exact ⟨h1', h2⟩
  | case4 a as b bs hab hba ih =>
    intro hA hB x
    rw [get_events_in_both_arrays, if_neg hab, if_pos hba, ih hA hB.of_cons]
    constructor
    · rintro ⟨h1, h2⟩
      exact ⟨h1, List.mem_cons_of_mem b h2⟩
    · rintro ⟨h1, h2⟩
      rcases List.mem_cons.mp h2 with rfl | h2'
      · exfalso
        rcases List.mem_cons.mp h1 with rfl | h1'
        · omega
        · have := List.rel_of_sorted_cons hA x h1'
          omega
      · exact ⟨h1, h2'⟩
  | case5 a as b bs hab hba ih =>
    intro hA hB x
    have habe : a = b := by omega
    rw [get_events_in_both_arrays, if_neg hab, if_neg hba]
    rw [List.mem_cons, ih hA.of_cons hB.of_cons]
    constructor
    · rintro (rfl | ⟨h1, h2⟩)
      · exact ⟨List.mem_cons_self _ _, habe ▸ List.mem_cons_self _ _⟩
      · exact ⟨List.mem_cons_of_mem a h1, List.mem_cons_of_mem b h2⟩
    · rintro ⟨h1, h2⟩
      by_cases hxa : x = a
      · exact Or.inl hxa
      · refine Or.inr ⟨?_, ?_⟩
        · rcases List.mem_cons.mp h1 with rfl | h1'
          · exact absurd rfl hxa
          · exact h1'
        · rcases List.mem_cons.mp h2 with rfl | h2'
          · exact absurd habe.symm hxa
          · exact h2'

/-- The two-pointer intersection of sorted arrays is sorted ascending. -/
theorem sorted_get_events_in_both_arrays : ∀ (A B : List Int),
    List.Sorted (· ≤ ·) A → List.Sorted (· ≤ ·) B →
    List.Sorted (· ≤ ·) (get_events_in_both_arrays A B) := by
  intro A B
  induction A, B using get_events_in_both_arrays.induct with
  | case1 B =>
    intro _ _
    simp [get_events_in_both_arrays]
  | case2 a as =>
    intro _ _
    simp [get_events_in_both_arrays]
  | case3 a as b bs hab ih =>
    intro hA hB
    rw [get_events_in_both_arrays, if_pos hab]
    exact ih hA.of_cons hB
  | case4 a as b bs hab hba ih =>
    intro hA hB
    rw [get_events_in_both_arrays, if_neg hab, if_pos hba]
    exact ih hA hB.of_cons
  | case5 a as b bs hab hba ih =>
    intro hA hB
    rw [get_events_in_both_arrays, if_neg hab, if_neg hba]
    rw [List.sorted_cons]
    refine ⟨?_, ih hA.of_cons hB.of_cons⟩
    intro y hy
    have hy' := (mem_get_events_in_both_arrays as bs hA.of_cons hB.of_cons y).mp hy
    exact List.rel_of_sorted_cons hA y hy'.1

/-- On duplicate-free sorted inputs, the two-pointer intersection coincides,
as a list, with the brute-force reference intersection. -/
theorem get_events_in_both_arrays_eq_brute : ∀ (A B : List Int),
    List.Sorted (· ≤ ·) A → List.Sorted (· ≤ ·) B → A.Nodup → B.Nodup →
    get_events_in_both_arrays A B = bruteIntersect A B := by
  intro A B
  induction A, B using get_events_in_both_arrays.induct with
  | case1 B =>
    intro _ _ _ _
    simp [get_events_in_both_arrays, bruteIntersect]
  | case2 a as =>
    intro _ _ _ _
    rw [get_events_in_both_arrays, bruteIntersect]
    refine (List.filter_eq_nil_iff.mpr ?_).symm
    intro x _
    simp
  | case3 a as b bs hab ih =>
    intro hA hB hnA hnB
    have hnotB : a ∉ b :: bs := by
      intro hmem
      rcases List.mem_cons.mp hmem with rfl | h'
      · omega
      · have := List.rel_of_sorted_cons hB a h'
        omega
    rw [get_events_in_both_arrays, if_pos hab, ih hA.of_cons hB (List.Nodup.of_cons hnA) hnB]
    rw [bruteIntersect, bruteIntersect, List.filter_cons]
    simp [hnotB]
  | case4 a as b bs hab hba ih =>
    intro hA hB hnA hnB
    rw [get_events_in_both_arrays, if_neg hab, if_pos hba,
      ih hA hB.of_cons hnA (List.Nodup.of_cons hnB)]
    rw [bruteIntersect, bruteIntersect]
    refine List.filter_congr ?_
    intro x hx
    have hax : a ≤ x := by
      rcases List.mem_cons.mp hx with rfl | h'
      · omega
      · exact List.rel_of_sorted_cons hA x h'
    simp only [decide_eq_decide, List.mem_cons]
    constructor
    · exact Or.inr
    · rintro (rfl | h)
      · omega
      · exact h
  | case5 a as b bs hab hba ih =>
    intro hA hB hnA hnB
    have habe : a = b := by omega
    rw [get_events_in_both_arrays, if_neg hab, if_neg hba,
      ih hA.of_cons hB.of_cons (List.Nodup.of_cons hnA) (List.Nodup.of_cons hnB)]
    rw [bruteIntersect, bruteIntersect, List.filter_cons]
    have haB : a ∈ b :: bs := habe ▸ List.mem_cons_self _ _
    simp only [haB, decide_eq_true_eq, if_pos]
    congr 1
    refine List.filter_congr ?_
    intro x hx
    have hxa : x ≠ a := fun hh => (List.nodup_cons.mp hnA).1 (hh ▸ hx)
    have hxb : x ≠ b := fun hh => hxa (hh.trans habe.symm)
    simp [hxb]

/-- **C6** For all sorted event-number arrays `A` and `B`,
`get_events_in_both_arrays` returns the events present in both arrays in
ascending order; it is duplicate-free whenever the inputs are; empty inputs
give the (valid) empty result; and the result agrees with the brute-force set
intersection — as sets always, and even as a list on duplicate-free inputs. -/
theorem C6_intersection_contract (A B : List Int)
    (hA : List.Sorted (· ≤ ·) A) (hB : List.Sorted (· ≤ ·) B) :
    List.Sorted (· ≤ ·) (get_events_in_both_arrays A B)
    ∧ (∀ x : Int, x ∈ get_events_in_both_arrays A B ↔ (x ∈ A ∧ x ∈ B))
    ∧ (A.Nodup → B.Nodup →
        (get_events_in_both_arrays A B).Nodup
        ∧ get_events_in_both_arrays A B = bruteIntersect A B)
    ∧ get_events_in_both_arrays [] B = []
    ∧ get_events_in_both_arrays A [] = [] := by
  refine ⟨sorted_get_events_in_both_arrays A B hA hB,
    mem_get_events_in_both_arrays A B hA hB, ?_, ?_, ?_⟩
  · intro hnA hnB
    have heq := get_events_in_both_arrays_eq_brute A B hA hB hnA hnB
    refine ⟨?_, heq⟩
    rw [heq, bruteIntersect]
    exact hnA.filter _
  · simp [get_events_in_both_arrays]
  · cases A <;> simp [get_events_in_both_arrays]

/-- Witness for `C6_intersection_contract` at `A = [1, 2]`, `B = [2, 3]`. -/
theorem C6_intersection_contract_witness :
    List.Sorted (· ≤ ·) ([1, 2] : List Int)
    ∧ (∀ x : Int, x ∈ get_events_in_both_arrays [1, 2] [2, 3] ↔ (x ∈ ([1, 2] : List Int) ∧ x ∈ ([2, 3] : List Int))) :=
  ⟨by decide,
   (C6_intersection_contract [1, 2] [2, 3] (by decide) (by decide)).2.1⟩

/-- Membership in the sorted merge is membership in either input. -/
theorem mem_mergeSorted : ∀ (A B : List Int) (x : Int),
    x ∈ mergeSorted A B ↔ x ∈ A ∨ x ∈ B := by
  intro A B
  induction A, B using mergeSorted.induct with
  | case1 B =>
    intro x
    simp [mergeSorted]
  | case2 a as =>
    intro x
    simp [mergeSorted]
  | case3 a as b bs hab ih =>
    intro x
    rw [mergeSorted, if_pos hab]
    rw [List.mem_cons, ih]
    simp [List.mem_cons]
    tauto
  | case4 a as b bs hab ih =>
    intro x
    rw [mergeSorted, if_neg hab]
    rw [List.mem_cons, ih]
    simp [List.mem_cons]
    tauto

/-- The merge of two sorted lists is sorted. -/
theorem sorted_mergeSorted : ∀ (A B : List Int),
    List.Sorted (· ≤ ·) A → List.Sorted (· ≤ ·) B →
    List.Sorted (· ≤ ·) (mergeSorted A B) := by
  intro A B
  induction A, B using mergeSorted.induct with
  | case1 B =>
    intro _ hB
    simpa [mergeSorted] using hB
  | case2 a as =>
    intro hA _
    simpa [mergeSorted] using hA
  | case3 a as b bs hab ih =>
    intro hA hB
    rw [mergeSorted, if_pos hab, List.sorted_cons]
    refine ⟨?_, ih hA.of_cons hB⟩
    intro y hy
    rcases (mem_mergeSorted as (b :: bs) y).mp hy with h | h
    · exact List.rel_of_sorted_cons hA y h
    · rcases List.mem_cons.mp h with rfl | h'
      · exact hab
      · exact le_trans hab (List.rel_of_sorted_cons hB y h')
  | case4 a as b bs hab ih =>
    intro hA hB
    rw [mergeSorted, if_neg hab, List.sorted_cons]
    refine ⟨?_, ih hA hB.of_cons⟩
    intro y hy
    rcases (mem_mergeSorted (a :: as) bs y).mp hy with h | h
    · rcases List.mem_cons.mp h with rfl | h'
      · omega
      · have := List.rel_of_sorted_cons hA y h'
        omega
    · exact List.rel_of_sorted_cons hB y h

/-- The merge uses exactly `|A| + |B|` buffer entries. -/
theorem length_mergeSorted : ∀ (A B : List Int),
    (mergeSorted A B).length = A.length + B.length := by
  intro A B
  induction A, B using mergeSorted.induct with
  | case1 B => simp [mergeSorted]
  | case2 a as => simp [mergeSorted]
  | case3 a as b bs hab ih =>
    rw [mergeSorted, if_pos hab]
    simp only [List.length_cons, ih]
    omega
  | case4 a as b bs hab ih =>
    rw [mergeSorted, if_neg hab]
    simp only [List.length_cons, ih]
    omega

/-- Adjacent deduplication preserves membership. -/
theorem mem_dedupAdj : ∀ (l : List Int) (x : Int), x ∈ dedupAdj l ↔ x ∈ l := by
  intro l
  induction l using dedupAdj.induct with
  | case1 =>
    intro x
    simp [dedupAdj]
  | case2 a =>
    intro x
    simp [dedupAdj]
  | case3 a t ih =>
    intro x
    rw [dedupAdj, if_pos rfl, ih]
    constructor
    · intro h
      exact List.mem_cons_of_mem a h
    · intro h
      rcases List.mem_cons.mp h with rfl | h'
      · exact List.mem_cons_self _ _
      · exact h'
  | case4 a b rest hab ih =>
    intro x
    rw [dedupAdj, if_neg hab, List.mem_cons, ih]
    constructor
    · intro h
      rcases h with rfl | h'
      · exact List.mem_cons_self _ _
      · exact List.mem_cons_of_mem a h'
    · intro h
      rcases List.mem_cons.mp h with rfl | h'
      · exact Or.inl rfl
      · exact Or.inr h'

/-- Adjacent deduplication of a `≤`-sorted list is strictly sorted, hence a
duplicate-free representation of the set of its elements. -/
theorem sorted_lt_dedupAdj : ∀ (l : List Int),
    List.Sorted (· ≤ ·) l → List.Pairwise (· < ·) (dedupAdj l) := by
  intro l
  induction l using dedupAdj.induct with
  | case1 =>
    intro _
    simp [dedupAdj]
  | case2 a =>
    intro _
    simp [dedupAdj]
  | case3 a t ih =>
    intro hs
    rw [dedupAdj, if_pos rfl]
    exact ih hs.of_cons
  | case4 a b rest hab ih =>
    intro hs
    rw [dedupAdj]
    rw [if_neg hab]
    refine List.pairwise_cons.mpr ⟨?_, ih hs.of_cons⟩
    intro y hy
    have hyb : y ∈ b :: rest := (mem_dedupAdj _ y).mp hy
    have h1 : a ≤ b := List.rel_of_sorted_cons hs b (List.mem_cons_self _ _)
    have h2 : b ≤ y := by
      rcases List.mem_cons.mp hyb with rfl | h'
      · omega
      · exact List.rel_of_sorted_cons hs.of_cons y h'
    have h3 : a ≠ b := hab
    omega

/-- Adjacent deduplication never lengthens a list. -/
theorem length_dedupAdj_le : ∀ (l : List Int), (dedupAdj l).length ≤ l.length := by
  intro l
  induction l using dedupAdj.induct with
  | case1 => simp [dedupAdj]
  | case2 a => simp [dedupAdj]
  | case3 a t ih =>
    rw [dedupAdj, if_pos rfl]
    simp only [List.length_cons] at ih ⊢
    omega
  | case4 a b rest hab ih =>
    rw [dedupAdj, if_neg hab]
    simp only [List.length_cons] at ih ⊢
    omega

/-- **C7** For all sorted event-number arrays `A` and `B`,
`get_max_events_in_both_arrays` produces the sorted, duplicate-free set of
event numbers appearing in either array, together with an explicit element
count, and that count never exceeds `|A| + |B|` (the merge-buffer bound). -/
theorem C7_bounded_union_contract (A B : List Int)
    (hA : List.Sorted (· ≤ ·) A) (hB : List.Sorted (· ≤ ·) B) :
    (get_max_events_in_both_arrays A B).2 = (get_max_events_in_both_arrays A B).1.length
    ∧ List.Pairwise (· < ·) (get_max_events_in_both_arrays A B).1
    ∧ (∀ x : Int, x ∈ (get_max_events_in_both_arrays A B).1 ↔ (x ∈ A ∨ x ∈ B))
    ∧ (get_max_events_in_both_arrays A B).2 ≤ A.length + B.length := by
  refine ⟨rfl, ?_, ?_, ?_⟩
  · exact sorted_lt_dedupAdj _ (sorted_mergeSorted A B hA hB)
  · intro x
    rw [get_max_events_in_both_arrays]
    rw [mem_dedupAdj, mem_mergeSorted]
  · rw [get_max_events_in_both_arrays]
    have h1 := length_dedupAdj_le (mergeSorted A B)
    have h2 := length_mergeSorted A B
    omega

/-- Witness for `C7_bounded_union_contract` at `A = [1, 2]`, `B = [2, 4]`. -/
theorem C7_bounded_union_contract_witness :
    List.Sorted (· ≤ ·) ([1, 2] : List Int)
    ∧ (get_max_events_in_both_arrays [1, 2] [2, 4]).2 ≤ 2 + 2 :=
  ⟨by decide, (C7_bounded_union_contract [1, 2] [2, 4] (by decide) (by decide)).2.2.2⟩

/-- Guard expressing "this cluster row was not already served to an earlier,
equal reference entry". -/
def prevGuard : Option Int → ClusterInfo → Bool
  | none, _ => true
  | some p, c => decide (c.event_number ≠ p)

/-- The mapped output always has one row per reference entry. -/
theorem map_cluster_go_length (cluster : List ClusterInfo) :
    ∀ (events : List Int) (prev : Option Int),
      (map_cluster_go cluster prev events).length = events.length := by
  intro events
  induction events with
  | nil => intro prev; rfl
  | cons e es ih =>
    intro prev
    rw [map_cluster_go]
    simp [ih]

/-- Splitting off one reference event: filtering a strictly-sorted cluster
array by membership in `e :: es` (and not being a previously served event)
splits into the unique row for `e`, if any, followed by the rows for `es`. -/
theorem filter_cons_event (e : Int) (es : List Int) (pOpt : Option Int)
    (hes : ∀ x ∈ es, e ≤ x) (hp : ∀ p, pOpt = some p → p < e) :
    ∀ (cluster : List ClusterInfo),
      List.Pairwise (fun c1 c2 => c1.event_number < c2.event_number) cluster →
      cluster.filter (fun c => decide (c.event_number ∈ e :: es) && prevGuard pOpt c)
        = (cluster.find? (fun c => c.event_number == e)).toList ++
          cluster.filter (fun c => decide (c.event_number ∈ es) && prevGuard (some e) c) := by
  intro cluster
  induction cluster with
  | nil => intro _; simp
  | cons d ds ih =>
    intro hd
    have hdtail := List.pairwise_cons.mp hd
    by_cases hde : d.event_number = e
    · have hfind : (d :: ds).find? (fun c => c.event_number == e) = some d := by
        rw [List.find?_cons_of_pos]
        simp [hde]
      have h1 : (decide (d.event_number ∈ e :: es) && prevGuard pOpt d) = true := by
        cases pOpt with
        | none => simp [prevGuard, hde]
        | some p =>
          have hpe := hp p rfl
          simp [prevGuard, hde]
          omega
      have h2 : (decide (d.event_number ∈ es) && prevGuard (some e) d) = false := by
        simp [prevGuard, hde]
      rw [hfind, List.filter_cons, List.filter_cons, if_pos h1,
        if_neg (ne_true_of_eq_false h2)]
      simp only [Option.toList_some, List.singleton_append]
      refine congrArg (List.cons d) ?_
      refine List.filter_congr ?_
      intro x hx
      have hlt : d.event_number < x.event_number := hdtail.1 x hx
      have hxe : x.event_number ≠ e := by omega
      cases pOpt with
      | none => simp [prevGuard, List.mem_cons, hxe]
      | some p =>
        have hpe := hp p rfl
        have hxp : x.event_number ≠ p := by omega
        simp [prevGuard, List.mem_cons, hxe, hxp]
    · have hfind : (d :: ds).find? (fun c => c.event_number == e)
          = ds.find? (fun c => c.event_number == e) := by
        rw [List.find?_cons_of_neg]
        simp [hde]
      have hPeq : (decide (d.event_number ∈ e :: es) && prevGuard pOpt d)
          = (decide (d.event_number ∈ es) && prevGuard (some e) d) := by
        by_cases hmem : d.event_number ∈ es
        · have h1 : e ≤ d.event_number := hes _ hmem
          cases pOpt with
          | none => simp [prevGuard, List.mem_cons, hmem, hde]
          | some p =>
            have hpe := hp p rfl
            have h3 : d.event_number ≠ p := by omega
            simp [prevGuard, List.mem_cons, hmem, hde, h3]
        · simp [prevGuard, List.mem_cons, hmem, hde]
      rw [hfind, List.filter_cons, List.filter_cons, hPeq]
      by_cases hP : (decide (d.event_number ∈ es) && prevGuard (some e) d) = true
      · have hdes : d.event_number ∈ es := by
          have h := hP
          simp only [Bool.and_eq_true, decide_eq_true_eq] at h
          exact h.1
        have hnone : ds.find? (fun c => c.event_number == e) = none := by
          cases hf : ds.find? (fun c => c.event_number == e) with
          | none => rfl
          | some d0 =>
            exfalso
            have hmem0 := List.mem_of_find?_eq_some hf
            have hev0 : d0.event_number = e := by
              have := List.find?_some hf
              simpa using this
            have hlt := hdtail.1 d0 hmem0
            have hge := hes _ hdes
            omega
        have ih' := ih hdtail.2
        rw [hnone] at ih'
        simp only [Option.toList_none, List.nil_append] at ih'
        rw [hnone, if_pos hP, if_pos hP]
        simp only [Option.toList_none, List.nil_append]
        exact congrArg (List.cons d) ih'
      · have hP' : ¬((decide (d.event_number ∈ es) && prevGuard (some e) d) = true) := hP
        rw [if_neg hP', if_neg hP']
        exact ih hdtail.2

/-- Filtering the non-sentinel rows of the mapped output reproduces the
cluster rows whose events occur in the (remaining) reference list and were not
already served. -/
theorem map_cluster_go_filter (cluster : List ClusterInfo)
    (hd : List.Pairwise (fun c1 c2 => c1.event_number < c2.event_number) cluster)
    (hnz : ∀ c ∈ cluster, c.mean_column ≠ 0) :
    ∀ (events : List Int) (prev : Option Int),
      List.Sorted (· ≤ ·) events →
      (∀ p, prev = some p → ∀ e ∈ events, p ≤ e) →
      (map_cluster_go cluster prev events).filter (fun c => c.mean_column != 0)
        = cluster.filter (fun c => decide (c.event_number ∈ events) && prevGuard prev c) := by
  intro events
  induction events with
  | nil =>
    intro prev _ _
    rw [map_cluster_go]
    refine (List.filter_eq_nil_iff.mpr ?_).symm
    intro c _
    simp
  | cons e es ih =>
    intro prev hsort hprev
    rw [map_cluster_go]
    by_cases hpe : prev = some e
    · rw [if_pos hpe, List.filter_cons,
        if_neg (by decide : ¬(((zeroCluster.mean_column != 0) : Bool) = true))]
      have ih' := ih (some e) hsort.of_cons
        (by
          intro p hpp x hx
          cases hpp
          exact List.rel_of_sorted_cons hsort x hx)
      rw [ih']
      subst hpe
      refine List.filter_congr ?_
      intro x _
      by_cases hxe : x.event_number = e
      · simp [prevGuard, hxe]
      · simp [prevGuard, List.mem_cons, hxe]
    · rw [if_neg hpe]
      have hp' : ∀ p, prev = some p → p < e := by
        intro p hpp
        have h1 : p ≤ e := hprev p hpp e (List.mem_cons_self _ _)
        have h2 : p ≠ e := by
          intro hh
          exact hpe (by rw [hpp, hh])
        omega
      have hes : ∀ x ∈ es, e ≤ x := fun x hx => List.rel_of_sorted_cons hsort x hx
      have ih' := ih (some e) hsort.of_cons
        (by
          intro p hpp x hx
          cases hpp
          exact hes x hx)
      rw [filter_cons_event e es prev hes hp' cluster hd]
      cases hfind : cluster.find? (fun c => c.event_number == e) with
      | some d =>
        have hdmem := List.mem_of_find?_eq_some hfind
        have hdnz : (d.mean_column != 0) = true := by
          simpa using hnz d hdmem
        simp only [Option.getD_some, Option.toList_some, List.filter_cons, List.singleton_append]
        rw [if_pos hdnz]
        exact congrArg (List.cons d) ih'
      | none =>
        simp only [Option.getD_none, Option.toList_none, List.filter_cons, List.nil_append]
        rw [if_neg (by decide : ¬(((zeroCluster.mean_column != 0) : Bool) = true))]
        exact ih'

/-- With a repeated reference entry, only the first occurrence receives the
cluster row: the mapped output row `1` is the zero row even though the event
is present in the cluster array, refuting the claim's per-row description. -/
theorem C5_repeated_reference_counterexample :
    map_cluster [1, 1] [⟨1, 2, 3, 4⟩] = [⟨1, 2, 3, 4⟩, zeroCluster]
    ∧ zeroCluster ≠ (⟨1, 2, 3, 4⟩ : ClusterInfo) := by
  exact ⟨rfl, by decide⟩

/-- **C5** (amended) For every reference array `R` sorted ascending and every
cluster array `D` strictly sorted by event number (at most one cluster row per
event) whose rows carry a non-zero `mean_column` (zero is the reserved
sentinel), `map_cluster` returns an array of length `|R|` in which the first
occurrence of each reference event holds `D`'s row for that event when
present, and every other row is the zero/sentinel row; filtering output rows
with `mean_column != 0` reproduces exactly the rows of `D` whose event numbers
occur in `R`. -/
theorem C5_cluster_mapping (events : List Int) (cluster : List ClusterInfo)
    (hre : List.Sorted (· ≤ ·) events)
    (hd : List.Pairwise (fun c1 c2 => c1.event_number < c2.event_number) cluster)
    (hnz : ∀ c ∈ cluster, c.mean_column ≠ 0) :
    (map_cluster events cluster).length = events.length
    ∧ (map_cluster events cluster).filter (fun c => c.mean_column != 0)
        = cluster.filter (fun c => decide (c.event_number ∈ events)) := by
  constructor
  · exact map_cluster_go_length cluster events none
  · rw [map_cluster, map_cluster_go_filter cluster hd hnz events none hre
      (by intro p hpp; simp at hpp)]
    refine List.filter_congr ?_
    intro x _
    simp [prevGuard]

/-- Witness for `C5_cluster_mapping` at `R = [1, 2]`,
`D = [⟨2, 5, 6, 7⟩]`. -/
theorem C5_cluster_mapping_witness :
    List.Sorted (· ≤ ·) ([1, 2] : List Int)
    ∧ (map_cluster [1, 2] [⟨2, 5, 6, 7⟩]).filter (fun c => c.mean_column != 0)
        = List.filter (fun c => decide (c.event_number ∈ ([1, 2] : List Int))) [⟨2, 5, 6, 7⟩] :=
  ⟨by decide,
   (C5_cluster_mapping [1, 2] [⟨2, 5, 6, 7⟩] (by decide) (by decide)
     (by intro c hc; simp at hc; rw [hc]; decide)).2⟩

/-- `getD` at an in-range index is plain indexing. -/
theorem getD_of_lt {α : Type} (l : List α) (i : Nat) (d : α) (h : i < l.length) :
    l.getD i d = l[i] := by
  rw [List.getD_eq_getElem?_getD, List.getElem?_eq_getElem h]
  rfl

/-- One DUT pass over the track-quality column, row-wise. -/
theorem tqStep_getD (tq : List Nat) (p : Nat × List Nat) (i : Nat) (h : i < tq.length) :
    (tqStep tq p).getD i 0
      = (if p.2.getD i 0 = 1 then ((tq.getD i 0) ||| ((1 <<< (24 + p.1)) % 2 ^ 32)) % 2 ^ 32
         else tq.getD i 0) := by
  have h' : i < (tqStep tq p).length := by
    rw [tqStep, List.length_mapIdx]; exact h
  rw [getD_of_lt _ _ _ h', getD_of_lt _ _ _ h]
  simp only [tqStep, List.getElem_mapIdx]

/-- The length of the track-quality column is preserved by every DUT pass. -/
theorem tqFold_length : ∀ (ds : List (Nat × List Nat)) (tq : List Nat),
    (ds.foldl tqStep tq).length = tq.length := by
  intro ds
  induction ds with
  | nil => intro tq; rfl
  | cons p ps ih =>
    intro tq
    rw [List.foldl_cons, ih, tqStep, List.length_mapIdx]

/-- Row-wise effect of folding the secondary-DUT passes over the
track-quality column: bits other than the processed DUTs' bits are preserved,
and each processed DUT's bit becomes the OR of its previous value with that
DUT's correlation-mask test. -/
theorem tqFold_spec : ∀ (ds : List (Nat × List Nat)) (tq : List Nat),
    (∀ p ∈ ds, 1 ≤ p.1 ∧ p.1 ≤ 7) →
    (ds.map Prod.fst).Nodup →
    ∀ (i : Nat), i < tq.length → tq.getD i 0 < 2 ^ 32 →
      ((ds.foldl tqStep tq).getD i 0 < 2 ^ 32)
      ∧ (∀ b : Nat, (∀ p ∈ ds, b ≠ 24 + p.1) →
          ((ds.foldl tqStep tq).getD i 0).testBit b = (tq.getD i 0).testBit b)
      ∧ (∀ p ∈ ds, ((ds.foldl tqStep tq).getD i 0).testBit (24 + p.1)
          = ((tq.getD i 0).testBit (24 + p.1) || decide (p.2.getD i 0 = 1))) := by
  intro ds
  induction ds with
  | nil =>
    intro tq _ _ i _ hb
    refine ⟨hb, fun b _ => rfl, fun p hp => absurd hp (List.not_mem_nil p)⟩
  | cons p ps ih =>
    intro tq hrange hnd i hi hb
    have hp1 : 1 ≤ p.1 ∧ p.1 ≤ 7 := hrange p (List.mem_cons_self _ _)
    have hpow : (1 <<< (24 + p.1)) % 2 ^ 32 = 2 ^ (24 + p.1) := by
      rw [Nat.one_shiftLeft]
      exact Nat.mod_eq_of_lt (Nat.pow_lt_pow_right (by omega) (by omega))
    have hstep := tqStep_getD tq p i hi
    rw [hpow] at hstep
    have hpowlt : (2 : Nat) ^ (24 + p.1) < 2 ^ 32 :=
      Nat.pow_lt_pow_right (by omega) (by omega)
    have hb' : (tqStep tq p).getD i 0 < 2 ^ 32 := by
      rw [hstep]
      split
      · rw [Nat.mod_eq_of_lt (Nat.or_lt_two_pow hb hpowlt)]
        exact Nat.or_lt_two_pow hb hpowlt
      · exact hb
    have hstep' : (tqStep tq p).getD i 0
        = (if p.2.getD i 0 = 1 then (tq.getD i 0) ||| 2 ^ (24 + p.1) else tq.getD i 0) := by
      rw [hstep]
      split
      · exact Nat.mod_eq_of_lt (Nat.or_lt_two_pow hb hpowlt)
      · rfl
    have hi' : i < (tqStep tq p).length := by
      rw [tqStep, List.length_mapIdx]; exact hi
    have hrange' : ∀ q ∈ ps, 1 ≤ q.1 ∧ q.1 ≤ 7 :=
      fun q hq => hrange q (List.mem_cons_of_mem p hq)
    have hnd' : (ps.map Prod.fst).Nodup := (List.nodup_cons.mp hnd).2
    have hfresh : ∀ q ∈ ps, p.1 ≠ q.1 := by
      intro q hq heq
      exact (List.nodup_cons.mp hnd).1 (heq ▸ List.mem_map_of_mem Prod.fst hq)
    obtain ⟨ih1, ih2, ih3⟩ := ih (tqStep tq p) hrange' hnd' i hi' hb'
    rw [List.foldl_cons]
    refine ⟨ih1, ?_, ?_⟩
    · intro b hbavoid
      rw [ih2 b (fun q hq => hbavoid q (List.mem_cons_of_mem p hq))]
      rw [hstep']
      split
      · rw [Nat.testBit_or,
          Nat.testBit_two_pow_of_ne (fun hh => hbavoid p (List.mem_cons_self _ _) hh.symm),
          Bool.or_false]
      · rfl
    · intro q hq
      rcases List.mem_cons.mp hq with rfl | hq'
      · rw [ih2 (24 + q.1) (fun q' hq' hh => hfresh q' hq' (by omega))]
        rw [hstep']
        split
        · rename_i hcond
          rw [Nat.testBit_or, Nat.testBit_two_pow_self, Bool.or_true, hcond]
          simp
        · rename_i hcond
          rw [decide_eq_false hcond, Bool.or_false]
      · rw [ih3 q hq']
        rw [hstep']
        split
        · rw [Nat.testBit_or,
            Nat.testBit_two_pow_of_ne (fun hh => hfresh q hq' (by omega)),
            Bool.or_false]
        · rfl

/-- **C10** In the corrected Tracklets track-quality column, every row has bit
24 set (the reference DUT0 is always flagged as correlated with itself), and
for every secondary DUT `d` (with `1 ≤ d ≤ 7`, the indices representable in
the `uint32` field, listed once each) bit `24 + d` is set exactly on the rows
where the corrector reported `correlated == 1`. -/
theorem C10_track_quality_bits (n : Nat) (duts : List (Nat × List Nat))
    (hrange : ∀ p ∈ duts, 1 ≤ p.1 ∧ p.1 ≤ 7)
    (hnd : (duts.map Prod.fst).Nodup) :
    (fix_event_alignment_track_quality n duts).length = n
    ∧ ∀ i : Nat, i < n →
        (((fix_event_alignment_track_quality n duts).getD i 0).testBit 24 = true
        ∧ ∀ p ∈ duts,
            (((fix_event_alignment_track_quality n duts).getD i 0).testBit (24 + p.1) = true
              ↔ p.2.getD i 0 = 1)) := by
  have hinit : (1 <<< 24) % 2 ^ 32 = 2 ^ 24 := by
    rw [Nat.one_shiftLeft]
    exact Nat.mod_eq_of_lt (by norm_num)
  constructor
  · rw [fix_event_alignment_track_quality, tqFold_length, List.length_replicate]
  · intro i hi
    have hilen : i < (List.replicate n ((1 <<< 24) % 2 ^ 32)).length := by
      rw [List.length_replicate]; exact hi
    have hgd : (List.replicate n ((1 <<< 24) % 2 ^ 32)).getD i 0 = 2 ^ 24 := by
      rw [getD_of_lt _ _ _ hilen, List.getElem_replicate, hinit]
    have hbd : (List.replicate n ((1 <<< 24) % 2 ^ 32)).getD i 0 < 2 ^ 32 := by
      rw [hgd]; norm_num
    obtain ⟨h1, h2, h3⟩ := tqFold_spec duts _ hrange hnd i hilen hbd
    rw [fix_event_alignment_track_quality]
    constructor
    · rw [h2 24 (by intro q hq hh; have := (hrange q hq).1; omega), hgd]
      exact Nat.testBit_two_pow_self
    · intro p hp
      rw [h3 p hp, hgd,
        Nat.testBit_two_pow_of_ne (by have := (hrange p hp).1; omega), Bool.false_or]
      constructor
      · intro hh
        exact of_decide_eq_true hh
      · intro hh
        rw [decide_eq_true hh]

/-- Witness for `C10_track_quality_bits` at two rows and one secondary DUT
whose mask marks only the first row as correlated. -/
theorem C10_track_quality_bits_witness :
    (fix_event_alignment_track_quality 2 [(1, [1, 0])]).length = 2
    ∧ ((fix_event_alignment_track_quality 2 [(1, [1, 0])]).getD 0 0).testBit 24 = true :=
  ⟨(C10_track_quality_bits 2 [(1, [1, 0])] (by decide) (by decide)).1,
   ((C10_track_quality_bits 2 [(1, [1, 0])] (by decide) (by decide)).2 0 (by decide)).1⟩

/-! Correlation-drift corrector.  The C++
`analysis_functions.fix_event_alignment` is not part of the repository; only
its Python wrapper (`analysis_utils.py` lines 275-285) is.  The automaton
below is modelled from spec §4.5. -/

/-- Modelled from the spec: positional agreement of one event — the secondary
column/row match the reference within the per-axis tolerance `error`; a
zero/sentinel entry on either side yields no opinion (`none`). -/
def posAgree (error rc rr c r : Int) : Option Bool :=
  if rc = 0 ∨ c = 0 then none
  else some (decide ((rc - c).natAbs ≤ error.natAbs ∧ (rr - r).natAbs ≤ error.natAbs))

/-- Matches found for candidate offset `o` in the forward window of
`window` consecutive events starting at `i`. -/
def goodCount (rc rr c r : List Int) (error : Int) (i o window : Nat) : Nat :=
  ((List.range window).filter (fun k =>
    posAgree error (rc.getD (i + k) 0) (rr.getD (i + k) 0)
      (c.getD (i + k + o) 0) (r.getD (i + k + o) 0) == some true)).length

/-- Modelled from the spec: the candidate-offset search — the first offset, in
increasing scan order (§9's deterministic tie-break), for which at least
`n_good_events` matches occur within the forward window. -/
def findOffset (rc rr c r : List Int) (error : Int) (i : Nat)
    (search_range n_good window : Nat) : Option Nat :=
  (List.range (search_range + 1)).find?
    (fun o => n_good ≤ goodCount rc rr c r error i o window)

/-- Shift the secondary stream's values left by `o` from index `i` on,
padding the freed tail with the zero sentinel. -/
def shiftFrom (l : List Int) (i o : Nat) : List Int :=
  l.take i ++ l.drop (i + o) ++ List.replicate o 0

/-- Running state of the corrector: the (already shifted) secondary stream,
the per-event correlation flags, the bad streak, the automaton mode and the
count of corrective shifts applied. -/
structure CorrState where
  column : List Int
  row : List Int
  charge : List Int
  correlatedFlags : List Nat
  badStreak : Nat
  searching : Bool
  nFixes : Nat
  deriving Repr, DecidableEq

/-- Clear `len` correlation flags starting at `start`. -/
def clearFlags (flags : List Nat) (start len : Nat) : List Nat :=
  (List.range len).foldl (fun f k => f.set (start + k) 0) flags

/-- Modelled from the spec: one forward pass of the §4.5 automaton.  In
CORRELATED mode a match resets the bad streak, no opinion counts toward
neither streak, and the `n_bad_events`-th consecutive mismatch clears the
streak's flags and enters SEARCHING.  In SEARCHING mode the offset search
either applies the found shift (counting one corrective shift, restoring the
flag and returning to CORRELATED) or clears the flag and keeps searching at
the next event. -/
def fix_event_alignment_go (rc rr : List Int) (error : Int)
    (n_bad n_good search_range window : Nat) : Nat → Nat → CorrState → CorrState
  | 0, _, st => st
  | rem + 1, i, st =>
    if st.searching then
      match findOffset rc rr st.column st.row error i search_range n_good window with
      | some o =>
        fix_event_alignment_go rc rr error n_bad n_good search_range window rem (i + 1)
          { st with
            column := shiftFrom st.column i o
            row := shiftFrom st.row i o
            charge := shiftFrom st.charge i o
            correlatedFlags := st.correlatedFlags.set i 1
            badStreak := 0
            searching := false
            nFixes := st.nFixes + 1 }
      | none =>
        fix_event_alignment_go rc rr error n_bad n_good search_range window rem (i + 1)
          { st with correlatedFlags := st.correlatedFlags.set i 0 }
    else
      match posAgree error (rc.getD i 0) (rr.getD i 0)
          (st.column.getD i 0) (st.row.getD i 0) with
      | none =>
        fix_event_alignment_go rc rr error n_bad n_good search_range window rem (i + 1) st
      | some true =>
        fix_event_alignment_go rc rr error n_bad n_good search_range window rem (i + 1)
          { st with badStreak := 0 }
      | some false =>
        if n_bad ≤ st.badStreak + 1 then
          fix_event_alignment_go rc rr error n_bad n_good search_range window rem (i + 1)
            { st with
              badStreak := 0
              searching := true
              correlatedFlags := clearFlags st.correlatedFlags (i + 1 - (st.badStreak + 1))
                (st.badStreak + 1) }
        else
          fix_event_alignment_go rc rr error n_bad n_good search_range window rem (i + 1)
            { st with badStreak := st.badStreak + 1 }

/-- Embedding of the `analysis_utils.fix_event_alignment` wrapper (source
lines 275-285) over the spec-modelled automaton: allocate the all-ones
correlation mask, run the native pass, return the mask and the fix count.
`ref_charge`/`charge` take part only as shifted payload, as in §4.5. -/
def fix_event_alignment (event_numbers ref_column column ref_row row ref_charge charge : List Int)
    (error : Int) (n_bad_events n_good_events correlation_search_range good_events_search_range : Nat) :
    List Nat × Nat :=
  let n := event_numbers.length
  let st0 : CorrState := ⟨column, row, charge, List.replicate n 1, 0, false, 0⟩
  let stF := fix_event_alignment_go ref_column ref_row error n_bad_events n_good_events
    correlation_search_range good_events_search_range n 0 st0
  (stF.correlatedFlags, stF.nFixes)

/-- **C9** `fix_event_alignment` is deterministic: two runs on equal input
arrays, equal tolerance and equal hyperparameters return bit-for-bit equal
correlation masks and fix counts; the result depends on nothing else. -/
theorem C9_fix_event_alignment_deterministic
    (ev1 rc1 c1 rr1 r1 rq1 q1 : List Int) (e1 : Int) (nb1 ng1 sr1 gw1 : Nat)
    (ev2 rc2 c2 rr2 r2 rq2 q2 : List Int) (e2 : Int) (nb2 ng2 sr2 gw2 : Nat)
    (h1 : ev1 = ev2) (h2 : rc1 = rc2) (h3 : c1 = c2) (h4 : rr1 = rr2) (h5 : r1 = r2)
    (h6 : rq1 = rq2) (h7 : q1 = q2) (h8 : e1 = e2) (h9 : nb1 = nb2) (h10 : ng1 = ng2)
    (h11 : sr1 = sr2) (h12 : gw1 = gw2) :
    fix_event_alignment ev1 rc1 c1 rr1 r1 rq1 q1 e1 nb1 ng1 sr1 gw1
      = fix_event_alignment ev2 rc2 c2 rr2 r2 rq2 q2 e2 nb2 ng2 sr2 gw2 := by
  subst h1 h2 h3 h4 h5 h6 h7 h8 h9 h10 h11 h12
  rfl

/-- Witness for `C9_fix_event_alignment_deterministic` on a two-event run. -/
theorem C9_fix_event_alignment_deterministic_witness :
    fix_event_alignment [0, 1] [5, 6] [5, 9] [5, 6] [5, 9] [1, 1] [1, 1] 3 5 3 2000 10
      = fix_event_alignment [0, 1] [5, 6] [5, 9] [5, 6] [5, 9] [1, 1] [1, 1] 3 5 3 2000 10 :=
  C9_fix_event_alignment_deterministic
    [0, 1] [5, 6] [5, 9] [5, 6] [5, 9] [1, 1] [1, 1] 3 5 3 2000 10
    [0, 1] [5, 6] [5, 9] [5, 6] [5, 9] [1, 1] [1, 1] 3 5 3 2000 10
    rfl rfl rfl rfl rfl rfl rfl rfl rfl rfl rfl rfl

end TestbeamAnalysis
